import Mathlib

set_option synthInstance.maxSize 512

/-!
Verification of the cozo execution core: the `DerivedRelStore` epoch-indexed
in-memory relation (src/runtime/derived.rs) and the `Insertion`/`Upsert`
relational-algebra operator (src/algebra/op/insert.rs).

The embedding models tuples as lists of `DataValue` scalars, the `BTreeMap`
epoch snapshots as key-sorted association lists, and the fallible Rust code
paths (`Result`, poison checks, aggregate merge errors) as `Option`-valued
functions where `none` is an error.
-/

namespace Cozo

/-- A cozo scalar. `Guard` marks a position whose real value lives in the
paired value tuple; `Bot` is the upper sentinel for open-ended range scans
and compares greater than every other value. -/
inductive DataValue where
  | B (b : Bool)
  | I (i : Int)
  | S (s : String)
  | Guard
  | Bot
deriving DecidableEq

/-- Total strict order on scalars: `B < I < S < Guard < Bot`, with the
payload orders inside each variant. Mirrors the derived `Ord` on the Rust
tagged union, with `Bot` greatest. -/
def dvLt : DataValue → DataValue → Bool
  | .B a, .B b => !a && b
  | .B _, .I _ => true
  | .B _, .S _ => true
  | .B _, .Guard => true
  | .B _, .Bot => true
  | .I _, .B _ => false
  | .I a, .I b => decide (a < b)
  | .I _, .S _ => true
  | .I _, .Guard => true
  | .I _, .Bot => true
  | .S _, .B _ => false
  | .S _, .I _ => false
  | .S a, .S b => decide (a < b)
  | .S _, .Guard => true
  | .S _, .Bot => true
  | .Guard, .Bot => true
  | .Guard, _ => false
  | .Bot, _ => false

/-- A row: an ordered sequence of scalars. Rust `Tuple` is a `Vec<DataValue>`;
two tuples compare lexicographically. -/
abbrev Tuple := List DataValue

/-- Lexicographic strict order on tuples, as derived for `Vec<DataValue>` in
Rust: compare position by position, a strict proper prefix is smaller. -/
def tupLt : Tuple → Tuple → Bool
  | _, [] => false
  | [], _ :: _ => true
  | a :: as, b :: bs => if a = b then tupLt as bs else dvLt a b

/-- Non-strict companion of `tupLt`. -/
def tupLe (a b : Tuple) : Bool := !tupLt b a

/-! ### Epoch snapshots: `BTreeMap<Tuple, Tuple>` as a key-sorted association list -/

/-- One epoch snapshot: the `BTreeMap<Tuple, Tuple>` of a `DerivedRelStore`
epoch, modelled as an association list kept sorted by `tupLt` on keys. -/
abbrev Snapshot := List (Tuple × Tuple)

/-- The sortedness invariant every snapshot built by the store operations
maintains: keys strictly increasing in `tupLt`. -/
abbrev SortedSnap (s : Snapshot) : Prop :=
  List.Pairwise (fun p q => tupLt p.1 q.1 = true) s

/-- `BTreeMap::get`: the value stored under `k`, if any. -/
def mapGet (k : Tuple) : Snapshot → Option Tuple
  | [] => none
  | (k', v) :: rest => if k' = k then some v else mapGet k rest

/-- `BTreeMap::insert`: store `v` under `k`, replacing any previous value and
keeping the list sorted. -/
def mapInsert (k v : Tuple) : Snapshot → Snapshot
  | [] => [(k, v)]
  | (k', v') :: rest =>
    if tupLt k k' then (k, v) :: (k', v') :: rest
    else if k = k' then (k, v) :: rest
    else (k', v') :: mapInsert k v rest

/-! ### The derived store: epoch vector and write paths (src/runtime/derived.rs) -/

/-- `DerivedRelStore::ensure_mem_db_for_epoch`: grow the epoch vector with
fresh empty snapshots until index `epoch` exists; idempotent. -/
def ensure_mem_db_for_epoch (epoch : Nat) (db : List Snapshot) : List Snapshot :=
  db ++ List.replicate (epoch + 1 - db.length) ([] : Snapshot)

/-- `DerivedRelStore::put`: plain deduplicating put of a tuple (empty value)
into the given epoch. -/
def put (tuple : Tuple) (epoch : Nat) (db : List Snapshot) : List Snapshot :=
  let db1 := ensure_mem_db_for_epoch epoch db
  db1.set epoch (mapInsert tuple [] (db1.getD epoch []))

/-- `DerivedRelStore::put_kv`: put an explicit key/value pair into the given
epoch. -/
def put_kv (tuple val : Tuple) (epoch : Nat) (db : List Snapshot) : List Snapshot :=
  let db1 := ensure_mem_db_for_epoch epoch db
  db1.set epoch (mapInsert tuple val (db1.getD epoch []))

/-- `DerivedRelStore::exists`: key lookup in one epoch (the Rust method also
lazily grows the epoch vector, returned here alongside the answer). -/
def existsInEpoch (tuple : Tuple) (epoch : Nat) (db : List Snapshot) :
    Bool × List Snapshot :=
  let db1 := ensure_mem_db_for_epoch epoch db
  ((mapGet tuple (db1.getD epoch [])).isSome, db1)

/-! ### Meet aggregation (`DerivedRelStore::aggr_meet_put`) -/

/-- One meet operation: `op.update(&mut prev, new)` returns whether the
accumulator changed; modelled as the updated accumulator plus the change
flag, `none` for `Err`. -/
def MeetOp := DataValue → DataValue → Option (DataValue × Bool)

/-- The lookup key of a row under a meet-aggregate declaration: positions
with no aggregate keep the tuple value, aggregated positions get `Guard`. -/
def meetKey (aggrs : List (Option MeetOp)) (t : Tuple) : Tuple :=
  List.zipWith (fun ma v => if ma.isSome then DataValue.Guard else v) aggrs t

/-- The value stored for a fresh key: aggregated positions keep the raw
first-seen value, the rest get `Guard`. -/
def meetStoreVal (aggrs : List (Option MeetOp)) (t : Tuple) : Tuple :=
  List.zipWith (fun ma v => if ma.isSome then v else DataValue.Guard) aggrs t

/-- The merge loop of `aggr_meet_put`'s present-key branch: update every
aggregated position of the stored accumulator with the new row's value,
or-ing the change flags. -/
def meetMergeRow : List (Option MeetOp) → Tuple → Tuple → Option (Tuple × Bool)
  | [], [], [] => some ([], false)
  | none :: aggrs, p :: ps, _t :: ts =>
    match meetMergeRow aggrs ps ts with
    | none => none
    | some (rest, ch) => some (p :: rest, ch)
  | some op :: aggrs, p :: ps, t :: ts =>
    match op p t with
    | none => none
    | some (v, ch) =>
      match meetMergeRow aggrs ps ts with
      | none => none
      | some (rest, ch2) => some (v :: rest, ch || ch2)
  | _, _, _ => none

/-- `DerivedRelStore::aggr_meet_put`. Returns the updated epoch vector and
whether anything changed; `none` models a merge error. -/
def aggr_meet_put (tuple : Tuple) (aggrs : List (Option MeetOp)) (epoch : Nat)
    (db : List Snapshot) : Option (List Snapshot × Bool) :=
  let db1 := ensure_mem_db_for_epoch epoch db
  let key := meetKey aggrs tuple
  match mapGet key (db1.getD 0 []) with
  | some prev =>
    match meetMergeRow aggrs prev tuple with
    | none => none
    | some (merged, changed) =>
      let db2 := db1.set 0 (mapInsert key merged (db1.getD 0 []))
      let db3 :=
        if changed = true ∧ epoch ≠ 0 then
          db2.set epoch (mapInsert key merged (db2.getD epoch []))
        else db2
      some (db3, changed)
  | none =>
    let sv := meetStoreVal aggrs tuple
    let db2 := db1.set 0 (mapInsert key sv (db1.getD 0 []))
    let db3 :=
      if epoch ≠ 0 then db2.set epoch (mapInsert key sv (db2.getD epoch []))
      else db2
    some (db3, true)

/-- Reassembly of a key/value pair as done by every scan path: `Guard`
positions of the key are replaced by the paired value element. -/
def reassemble (k v : Tuple) : Tuple :=
  if v = [] then k
  else List.zipWith (fun ke ve => if ke = DataValue.Guard then ve else ke) k v

/-- A concrete meet operation for witnesses: integer `sum`, reporting a
change when the addend is non-zero. -/
def sumMeetOp : MeetOp := fun a b =>
  match a, b with
  | DataValue.I x, DataValue.I y => some (DataValue.I (x + y), decide (y ≠ 0))
  | _, _ => none

/-! ### The insertion/upsert operator (src/algebra/op/insert.rs) -/

/-- An `OwnTuple`: a table-id (or data-kind) prefix plus column values. -/
structure PTuple where
  pfx : Nat
  cols : List DataValue
deriving DecidableEq

/-- The `DataKind::Data` prefix used for freshly built value tuples. -/
def dataKindData : Nat := 0

/-- A table id together with its root/non-root storage flag. -/
structure TableId where
  id : Nat
  inRoot : Bool
deriving DecidableEq

/-- One physical key-value store (the root transaction or the temp store),
modelled as overwrite-on-put association data. -/
abbrev KV := List (PTuple × PTuple)

def kvGet (k : PTuple) (s : KV) : Option PTuple :=
  (s.find? (fun p => decide (p.1 = k))).map Prod.snd

def kvPut (k v : PTuple) (s : KV) : KV :=
  (k, v) :: s.filter (fun p => decide (p.1 ≠ k))

/-- The pair of physical stores reachable from the evaluation context. -/
structure InsState where
  root : KV
  temp : KV
deriving DecidableEq

def stGet (inRoot : Bool) (k : PTuple) (s : InsState) : Option PTuple :=
  match inRoot with
  | true => kvGet k s.root
  | false => kvGet k s.temp

def stPut (inRoot : Bool) (k v : PTuple) (s : InsState) : InsState :=
  match inRoot with
  | true => InsState.mk (kvPut k v s.root) s.temp
  | false => InsState.mk s.root (kvPut k v s.temp)

/-- Errors surfaced by `Insertion::iter` for one row. -/
inductive InsErr where
  | KeyConflict (k : PTuple)
  | EvalErr
deriving DecidableEq

/-- A compiled column extractor: any function from the upstream row to a
scalar, `none` modelling an evaluation error. -/
def Extractor (ρ : Type) := ρ → Option DataValue

def constEx {ρ : Type} (v : DataValue) : Extractor ρ := fun _ => some v

/-- Run a builder chain on one row, collecting the column values. -/
def evalChain {ρ : Type} : List (Extractor ρ) → ρ → Option (List DataValue)
  | [], _ => some []
  | f :: rest, row =>
    match f row, evalChain rest row with
    | some v, some vs => some (v :: vs)
    | _, _ => none

/-- `eval_to_tuple`: evaluate a builder chain and attach the tuple prefix. -/
def eval_to_tuple {ρ : Type} (pfx : Nat) (builder : List (Extractor ρ)) (row : ρ) :
    Option PTuple :=
  (evalChain builder row).map (fun cs => PTuple.mk pfx cs)

/-- `Insertion::make_key_builders`, edge case, forward key chain:
`[Const(src-table-id)] ++ src node keys ++ [Const(true)] ++ dst node keys ++
edge keys`. -/
def edgeKeyBuilder {ρ : Type} (srcId : Nat)
    (srcKeys dstKeys edgeKeys : List (Extractor ρ)) : List (Extractor ρ) :=
  constEx (DataValue.I (Int.ofNat srcId)) ::
    (srcKeys ++ constEx (DataValue.B true) :: (dstKeys ++ edgeKeys))

/-- `Insertion::make_key_builders`, edge case, inverse key chain:
`[Const(dst-table-id)] ++ dst node keys ++ [Const(true)] ++ src node keys ++
edge keys`. -/
def edgeInvKeyBuilder {ρ : Type} (dstId : Nat)
    (srcKeys dstKeys edgeKeys : List (Extractor ρ)) : List (Extractor ρ) :=
  constEx (DataValue.I (Int.ofNat dstId)) ::
    (dstKeys ++ constEx (DataValue.B true) :: (srcKeys ++ edgeKeys))

/-- The association-table write loop of `Insertion::iter`: evaluate each
association's value columns, overwrite the key's table-id prefix with the
association's id, write, and collect the values. -/
def assoc_writes {ρ : Type} (key : PTuple) (row : ρ) :
    List (TableId × List (Extractor ρ)) → InsState →
      InsState × Except InsErr (List PTuple)
  | [], s => (s, Except.ok [])
  | (tid, b) :: rest, s =>
    match eval_to_tuple dataKindData b row with
    | none => (s, Except.error InsErr.EvalErr)
    | some av =>
      let s1 := stPut tid.inRoot (PTuple.mk tid.id key.cols) av s
      match assoc_writes key row rest s1 with
      | (s2, Except.ok vs) => (s2, Except.ok (av :: vs))
      | (s2, Except.error e) => (s2, Except.error e)

/-- The emitted `TupleSet`: the slot-0 key, then the slot values (primary
value first, association values after, in declaration order). -/
structure TupleSetOut where
  keys : List PTuple
  vals : List PTuple
deriving DecidableEq

/-- Per-row trailer of `Insertion::iter`: association writes, prefix
restoration, output row. -/
def finishRow {ρ : Type} (targetTid : TableId) (key val : PTuple) (row : ρ)
    (assocBs : List (TableId × List (Extractor ρ))) (s : InsState) :
    InsState × Except InsErr TupleSetOut :=
  match assoc_writes key row assocBs s with
  | (s2, Except.error e) => (s2, Except.error e)
  | (s2, Except.ok avs) =>
    (s2, Except.ok (TupleSetOut.mk [PTuple.mk targetTid.id key.cols] (val :: avs)))

/-- One row of `Insertion::iter`: build key and value, probe the selected
store for the primary key in insert mode (failing with `KeyConflict`),
write primary key→value, inverse key→primary key for edges, then the
association rows, and emit the output row. -/
def insertRowStep {ρ : Type} (upsert : Bool) (targetTid : TableId)
    (keyB valB : List (Extractor ρ)) (invB : Option (List (Extractor ρ)))
    (assocBs : List (TableId × List (Extractor ρ)))
    (row : ρ) (s : InsState) : InsState × Except InsErr TupleSetOut :=
  match eval_to_tuple targetTid.id keyB row with
  | none => (s, Except.error InsErr.EvalErr)
  | some key =>
    match eval_to_tuple dataKindData valB row with
    | none => (s, Except.error InsErr.EvalErr)
    | some val =>
      if upsert = false ∧ (stGet targetTid.inRoot key s).isSome = true then
        (s, Except.error (InsErr.KeyConflict key))
      else
        let s1 := stPut targetTid.inRoot key val s
        match invB with
        | some b =>
          match eval_to_tuple targetTid.id b row with
          | none => (s1, Except.error InsErr.EvalErr)
          | some invKey =>
            finishRow targetTid key val row assocBs
              (stPut targetTid.inRoot invKey key s1)
        | none => finishRow targetTid key val row assocBs s1

/-- A value extractor over Boolean rows, used by concrete witnesses. -/
def boolValEx : Extractor Bool :=
  fun r => some (if r then DataValue.I 20 else DataValue.I 10)

/-- `DerivedRelStore::scan_sorted`: iterate epoch 0 in key order and yield
each entry's value tuple. -/
def scan_sorted (db : List Snapshot) : List Tuple :=
  ((ensure_mem_db_for_epoch 0 db).getD 0 []).map Prod.snd

/-- `DerivedRelStore::scan_prefix_for_epoch`: closed-range scan from the
prefix tuple to the prefix extended with the `Bot` sentinel, reassembling
`Guard` positions of each hit.  The `BTreeMap::range` over the sorted
snapshot is the order-preserving filter by the two bounds. -/
def scan_prefix_for_epoch (p : Tuple) (epoch : Nat) (db : List Snapshot) : List Tuple :=
  (((ensure_mem_db_for_epoch epoch db).getD epoch []).filter
    (fun q => tupLe p q.1 && tupLe q.1 (p ++ [DataValue.Bot]))).map
    (fun q => reassemble q.1 q.2)

/-! ### Normal (stateful) aggregation (src/runtime/derived.rs) -/

/-- One stateful normal aggregate, abstracted by its observable behaviour:
`normal_init`, the per-row `set` calls and the final `get` amount to a
function from the list of set values to the final value (`none` = error). -/
structure NormalAggr where
  finalize : List DataValue → Option DataValue

/-- Modelled from the spec: `QueryLimiter` (crate::query::eval, not under
src/) counts stored rows against a limit; `incr` registers one more row and
reports whether enough rows have now been produced. -/
structure QueryLimiter where
  limit : Nat
  counter : Nat
deriving DecidableEq

def QueryLimiter.incr (l : QueryLimiter) : QueryLimiter × Bool :=
  (QueryLimiter.mk l.limit (l.counter + 1), decide (l.limit ≤ l.counter + 1))

def nonAggVals (aggrs : List (Option NormalAggr)) (t : Tuple) : Tuple :=
  (List.zip aggrs t).filterMap (fun q => if q.1.isNone then some q.2 else none)

def aggVals (aggrs : List (Option NormalAggr)) (t : Tuple) : Tuple :=
  (List.zip aggrs t).filterMap (fun q => if q.1.isSome then some q.2 else none)

/-- The column reordering of `normal_aggr_put`: non-aggregated columns
first, aggregated columns last. -/
def reorderTuple (aggrs : List (Option NormalAggr)) (t : Tuple) : Tuple :=
  nonAggVals aggrs t ++ aggVals aggrs t

/-- `DerivedRelStore::normal_aggr_put`: reorder the row, append the serial
as a trailing column, store with an empty value into epoch 0. -/
def normal_aggr_put (t : Tuple) (aggrs : List (Option NormalAggr)) (serial : Nat)
    (db : List Snapshot) : List Snapshot :=
  let db1 := ensure_mem_db_for_epoch 0 db
  db1.set 0 (mapInsert (reorderTuple aggrs t ++ [DataValue.I (Int.ofNat serial)]) []
    (db1.getD 0 []))

def nKeys (aggrs : List (Option NormalAggr)) : Nat :=
  aggrs.countP (fun a => a.isNone)

/-- Positions of the non-aggregated columns, in order, offset by `base`. -/
def noneIdxsFrom : List (Option NormalAggr) → Nat → List Nat
  | [], _ => []
  | none :: rest, base => base :: noneIdxsFrom rest (base + 1)
  | some _ :: rest, base => noneIdxsFrom rest (base + 1)

/-- Positions of the aggregated columns, in order, offset by `base`. -/
def someIdxsFrom : List (Option NormalAggr) → Nat → List Nat
  | [], _ => []
  | none :: rest, base => someIdxsFrom rest (base + 1)
  | some _ :: rest, base => base :: someIdxsFrom rest (base + 1)

/-- The pre-inversion index list of `normal_aggr_scan_and_put`: original
positions of non-aggregated columns, then of aggregated columns. -/
def reorderIdx (aggrs : List (Option NormalAggr)) : List Nat :=
  noneIdxsFrom aggrs 0 ++ someIdxsFrom aggrs 0

/-- `invert_indices`: enumerate the reorder list, stable-sort the pairs by
original position, keep the new positions. -/
def invertIdx (aggrs : List (Option NormalAggr)) : List Nat :=
  (List.insertionSort (fun q r : Nat × Nat => q.2 ≤ r.2)
    (reorderIdx aggrs).enum).map Prod.fst

/-- The reassembling read of epoch 0 driving the scan. -/
def scanRows (db : List Snapshot) : List Tuple :=
  (db.getD 0 ([] : Snapshot)).map (fun q => reassemble q.1 q.2)

/-- `itertools::group_by`: maximal runs of consecutive rows agreeing on the
first `n` columns (accumulator-passing helper). -/
def groupsAux (n : Nat) : List Tuple → Tuple → List Tuple → List (List Tuple)
  | [], _, acc => [acc.reverse]
  | t :: ts, g, acc =>
    if t.take n = g then groupsAux n ts g (t :: acc)
    else acc.reverse :: groupsAux n ts (t.take n) [t]

def groupsFn (n : Nat) : List Tuple → List (List Tuple)
  | [] => []
  | t :: ts => groupsAux n ts (t.take n) [t]

/-- One output cell: non-aggregated positions take the first row's value at
the inverted index, aggregated positions finalize over the whole group's
values at the inverted index. -/
def resultCell (aggrs : List (Option NormalAggr)) (inv : List Nat)
    (first : Tuple) (group : List Tuple) (j : Nat) : Option DataValue :=
  match aggrs.getD j none with
  | none => some (first.getD (inv.getD j 0) DataValue.Guard)
  | some ag => ag.finalize (group.map (fun t => t.getD (inv.getD j 0) DataValue.Guard))

def cellsM (f : Nat → Option DataValue) : List Nat → Option (List DataValue)
  | [] => some []
  | j :: js =>
    match f j, cellsM f js with
    | some v, some vs => some (v :: vs)
    | _, _ => none

/-- The per-group result row, in original column order. -/
def computeResult (aggrs : List (Option NormalAggr)) (inv : List Nat)
    (first : Tuple) (group : List Tuple) : Option Tuple :=
  cellsM (resultCell aggrs inv first group) (List.range aggrs.length)

/-- The group loop of `normal_aggr_scan_and_put`: per group, poison is
polled once per row after the first; the result row is stored into the
destination's epoch 0, with novelty check and limiter increment when a
limiter is supplied; reaching the limit stops the scan early, returning
`true`. -/
def processGroups (aggrs : List (Option NormalAggr)) (inv : List Nat) (poison : Bool) :
    List (List Tuple) → Option QueryLimiter → List Snapshot →
      Option (Bool × List Snapshot × Option QueryLimiter)
  | [], lim, store => some (false, store, lim)
  | [] :: _, _, _ => none
  | (first :: others) :: rest, lim, store =>
    if poison = true ∧ others ≠ [] then none
    else
      match computeResult aggrs inv first (first :: others) with
      | none => none
      | some res =>
        match lim with
        | some l =>
          let store1 := ensure_mem_db_for_epoch 0 store
          if (mapGet res (store1.getD 0 [])).isSome then
            processGroups aggrs inv poison rest (some l) store1
          else
            let store2 := put res 0 store1
            let l2 := QueryLimiter.incr l
            if l2.2 then some (true, store2, some l2.1)
            else processGroups aggrs inv poison rest (some l2.1) store2
        | none => processGroups aggrs inv poison rest none (put res 0 store)

/-- `DerivedRelStore::normal_aggr_scan_and_put`. -/
def normal_aggr_scan_and_put (aggrs : List (Option NormalAggr))
    (db : List Snapshot) (limiter : Option QueryLimiter) (poison : Bool)
    (store : List Snapshot) : Option (Bool × List Snapshot × Option QueryLimiter) :=
  processGroups aggrs (invertIdx aggrs) poison
    (groupsFn (nKeys aggrs) (scanRows db)) limiter store

/-- A concrete `sum` normal aggregate over integers, for witnesses. -/
def sumAggr : NormalAggr :=
  NormalAggr.mk (fun vals =>
    (vals.foldl (fun acc v =>
        acc.bind (fun a =>
          match v with
          | DataValue.I i => some (a + i)
          | _ => none))
      (some (0 : Int))).map (fun a => DataValue.I a))

/-- Shared concrete fixture: a `sum` aggregate on column 1 grouped by
column 0. -/
def exAggrs : List (Option NormalAggr) := [none, some sumAggr]

/-- Shared concrete fixture: the relation with group `0` holding values
`[1, 2, 3]` and group `1` holding `[10]`, put in that order. -/
def exDb : List Snapshot :=
  normal_aggr_put [DataValue.I 1, DataValue.I 10] exAggrs 3
    (normal_aggr_put [DataValue.I 0, DataValue.I 3] exAggrs 2
      (normal_aggr_put [DataValue.I 0, DataValue.I 2] exAggrs 1
        (normal_aggr_put [DataValue.I 0, DataValue.I 1] exAggrs 0 [])))

/-! ### C4 support: building the scanned store -/

/-- The source store of the aggregation pass: each input row put with its
position as serial, exactly as the upstream operator feeds
`normal_aggr_put`. -/
def buildNormalStore (aggrs : List (Option NormalAggr)) (inputs : List Tuple) :
    List Snapshot :=
  inputs.enum.foldl (fun db q => normal_aggr_put q.2 aggrs q.1 db) []

/-- The key stored for one serially numbered input row. -/
def storedKey (aggrs : List (Option NormalAggr)) (q : Nat × Tuple) : Tuple :=
  reorderTuple aggrs q.2 ++ [DataValue.I (Int.ofNat q.1)]

def storedKeys (aggrs : List (Option NormalAggr)) (inputs : List Tuple) : List Tuple :=
  inputs.enum.map (storedKey aggrs)

/-- Repeated sorted insertion of keys with empty values. -/
def insertKeys (ks : List Tuple) (s : Snapshot) : Snapshot :=
  ks.foldl (fun s k => mapInsert k [] s) s

/-! ### C4 support: spec-side expected results -/

/-- Spec-side: the input rows forming the group whose non-aggregated column
values are `g`. -/
def membersOf (aggrs : List (Option NormalAggr)) (inputs : List Tuple) (g : Tuple) :
    List Tuple :=
  inputs.filter (fun t => decide (nonAggVals aggrs t = g))

/-- Spec-side: the group members in canonical scan order, sorted by their
reordered column tuples. -/
def canonMembers (aggrs : List (Option NormalAggr)) (inputs : List Tuple) (g : Tuple) :
    List Tuple :=
  List.insertionSort
    (fun a b => tupLe (reorderTuple aggrs a) (reorderTuple aggrs b) = true)
    (membersOf aggrs inputs g)

/-- Spec-side result cell in original column order: a non-aggregated
position carries the group value, an aggregated position the aggregate
finalized over all member values of that column. -/
def expectedCell (aggrs : List (Option NormalAggr)) (ms : List Tuple) (j : Nat) :
    Option DataValue :=
  match aggrs.getD j none with
  | none => some ((ms.headD []).getD j DataValue.Guard)
  | some ag => ag.finalize (ms.map (fun t => t.getD j DataValue.Guard))

/-- Spec-side result row for one group. -/
def expectedRow (aggrs : List (Option NormalAggr)) (ms : List Tuple) : Option Tuple :=
  cellsM (expectedCell aggrs ms) (List.range aggrs.length)

/-- Spec-side: the distinct group keys of the input multiset. -/
def groupKeysOf (aggrs : List (Option NormalAggr)) (inputs : List Tuple) : List Tuple :=
  (inputs.map (nonAggVals aggrs)).dedup

/-- The result rows of the groups, in group order. -/
def groupResultsOf (aggrs : List (Option NormalAggr)) (inv : List Nat)
    (groups : List (List Tuple)) : List Tuple :=
  groups.map (fun grp => (computeResult aggrs inv (grp.headD []) grp).getD [])

/-- A total sum aggregate over integers (non-integer inputs count as zero),
whose finalize always yields a value; used for the C4 witness. -/
def sumAggrT : NormalAggr :=
  NormalAggr.mk (fun vals =>
    some (DataValue.I (vals.foldl (fun acc v =>
      match v with
      | DataValue.I i => acc + i
      | _ => acc) (0 : Int))))

/-- C4 witness fixture: a sum aggregate on column 1 grouped by column 0. -/
def exAggrsT : List (Option NormalAggr) := [none, some sumAggrT]

/-- C4 witness fixture: group `0` holds values 1, 2, 3 and group `1` holds
10. -/
def exInputsC4 : List Tuple :=
  [[DataValue.I 0, DataValue.I 1], [DataValue.I 0, DataValue.I 2],
   [DataValue.I 0, DataValue.I 3], [DataValue.I 1, DataValue.I 10]]

/-- C4 witness fixture: the same rows in reversed order. -/
def exInputsC4b : List Tuple :=
  [[DataValue.I 1, DataValue.I 10], [DataValue.I 0, DataValue.I 3],
   [DataValue.I 0, DataValue.I 2], [DataValue.I 0, DataValue.I 1]]

/-! ### Theorems -/

theorem dvLt_irrefl (a : DataValue) : dvLt a a = false := by
  cases a <;> simp [dvLt]

theorem dvLt_trans {a b c : DataValue} (h1 : dvLt a b = true) (h2 : dvLt b c = true) :
    dvLt a c = true := by
  cases a <;> cases b <;> cases c <;> simp_all [dvLt]
  case I.I.I => omega
  case S.S.S => exact lt_trans h1 h2

theorem dvLt_asymm {a b : DataValue} (h : dvLt a b = true) : dvLt b a = false := by
  by_contra hc
  have hba : dvLt b a = true := by
    cases hba : dvLt b a
    · exact absurd hba hc
    · rfl
  have := dvLt_trans h hba
  rw [dvLt_irrefl] at this
  exact Bool.false_ne_true this

theorem dvLt_total {a b : DataValue} (h : a ≠ b) : dvLt a b = true ∨ dvLt b a = true := by
  cases a <;> cases b <;> simp_all [dvLt]
  case B.B a b => cases a <;> cases b <;> simp_all
  case S.S a b => exact fun he => h (String.ext he)

theorem dvLt_bot {a : DataValue} (h : a ≠ DataValue.Bot) : dvLt a DataValue.Bot = true := by
  cases a <;> simp_all [dvLt]

theorem dvLt_bot_false (a : DataValue) : dvLt DataValue.Bot a = false := by
  cases a <;> simp [dvLt]

theorem tupLt_irrefl (l : Tuple) : tupLt l l = false := by
  induction l with
  | nil => rfl
  | cons x xs ih => simp [tupLt, ih]

theorem tupLt_trans : ∀ {a b c : Tuple}, tupLt a b = true → tupLt b c = true →
    tupLt a c = true
  | _, [], _, h1, _ => by simp [tupLt] at h1
  | _, _ :: _, [], _, h2 => by simp [tupLt] at h2
  | [], _ :: _, _ :: _, _, _ => by simp [tupLt]
  | x :: xs, y :: ys, z :: zs, h1, h2 => by
    simp only [tupLt] at h1 h2 ⊢
    by_cases hxy : x = y
    · subst hxy
      by_cases hyz : x = z
      · subst hyz
        simp_all
        exact tupLt_trans h1 h2
      · simp_all
    · by_cases hyz : y = z
      · subst hyz
        by_cases hxz : x = y <;> simp_all
      · simp only [if_neg hxy] at h1
        simp only [if_neg hyz] at h2
        have hlt := dvLt_trans h1 h2
        have hne : x ≠ z := by
          intro he
          subst he
          rw [dvLt_irrefl] at hlt
          exact Bool.false_ne_true hlt
        simp [if_neg hne, hlt]

theorem tupLt_asymm {a b : Tuple} (h : tupLt a b = true) : tupLt b a = false := by
  by_contra hc
  have hba : tupLt b a = true := by
    cases hba : tupLt b a
    · exact absurd hba hc
    · rfl
  have := tupLt_trans h hba
  rw [tupLt_irrefl] at this
  exact Bool.false_ne_true this

theorem tupLt_total : ∀ {a b : Tuple}, a ≠ b → tupLt a b = true ∨ tupLt b a = true
  | [], [], h => absurd rfl h
  | [], _ :: _, _ => by simp [tupLt]
  | _ :: _, [], _ => by simp [tupLt]
  | x :: xs, y :: ys, h => by
    by_cases hxy : x = y
    · subst hxy
      have hne : xs ≠ ys := by
        intro he
        exact h (by rw [he])
      rcases tupLt_total hne with h' | h'
      · left; simp [tupLt, h']
      · right; simp [tupLt, h']
    · rcases dvLt_total hxy with h' | h'
      · left; simp [tupLt, if_neg hxy, h']
      · right
        have : y ≠ x := fun he => hxy he.symm
        simp [tupLt, if_neg this, h']

theorem tupLe_refl (a : Tuple) : tupLe a a = true := by
  simp [tupLe, tupLt_irrefl]

theorem tupLe_of_lt {a b : Tuple} (h : tupLt a b = true) : tupLe a b = true := by
  simp [tupLe, tupLt_asymm h]

theorem tupLe_antisymm {a b : Tuple} (h1 : tupLe a b = true) (h2 : tupLe b a = true) :
    a = b := by
  by_contra hne
  rcases tupLt_total hne with h | h
  · simp [tupLe, h] at h2
  · simp [tupLe, h] at h1

theorem tupLe_total (a b : Tuple) : tupLe a b = true ∨ tupLe b a = true := by
  by_cases hne : a = b
  · subst hne; left; exact tupLe_refl a
  · rcases tupLt_total hne with h | h
    · left; exact tupLe_of_lt h
    · right; exact tupLe_of_lt h

theorem tupLe_trans {a b c : Tuple} (h1 : tupLe a b = true) (h2 : tupLe b c = true) :
    tupLe a c = true := by
  by_cases hab : a = b
  · subst hab; exact h2
  · by_cases hbc : b = c
    · subst hbc; exact h1
    · rcases tupLt_total hab with h | h
      · rcases tupLt_total hbc with h' | h'
        · exact tupLe_of_lt (tupLt_trans h h')
        · simp [tupLe, h'] at h2
      · simp [tupLe, h] at h1

theorem tupLt_of_le_of_lt {a b c : Tuple} (h1 : tupLe a b = true) (h2 : tupLt b c = true) :
    tupLt a c = true := by
  by_cases hab : a = b
  · subst hab; exact h2
  · rcases tupLt_total hab with h | h
    · exact tupLt_trans h h2
    · simp [tupLe, h] at h1

theorem mapGet_mapInsert_self (k v : Tuple) (s : Snapshot) :
    mapGet k (mapInsert k v s) = some v := by
  induction s with
  | nil => simp [mapInsert, mapGet]
  | cons p rest ih =>
    obtain ⟨k', v'⟩ := p
    by_cases h1 : tupLt k k' = true
    · simp [mapInsert, h1, mapGet]
    · by_cases h2 : k = k'
      · subst h2
        simp [mapInsert, h1, tupLt_irrefl, mapGet]
      · have hne : ¬ k' = k := fun he => h2 he.symm
        simp [mapInsert, h1, h2, mapGet, hne, ih]

theorem mapGet_mapInsert_ne {k k' : Tuple} (hne : k' ≠ k) (v : Tuple) (s : Snapshot) :
    mapGet k' (mapInsert k v s) = mapGet k' s := by
  have hkk : ¬ k = k' := fun he => hne he.symm
  induction s with
  | nil => simp [mapInsert, mapGet, hkk]
  | cons p rest ih =>
    obtain ⟨k0, v0⟩ := p
    by_cases h1 : tupLt k k0 = true
    · simp [mapInsert, h1, mapGet, hkk]
    · by_cases h2 : k = k0
      · subst h2
        simp [mapInsert, h1, mapGet, hkk]
      · simp only [mapInsert, h1, if_false, h2, ite_false]
        by_cases h3 : k0 = k'
        · simp [mapGet, h3]
        · simp [mapGet, h3, ih]

theorem ne_of_tupLt {a b : Tuple} (h : tupLt a b = true) : a ≠ b := by
  intro he
  rw [he, tupLt_irrefl] at h
  exact Bool.false_ne_true h

theorem mem_mapInsert {x : Tuple × Tuple} {k v : Tuple} {s : Snapshot}
    (hs : SortedSnap s) :
    x ∈ mapInsert k v s ↔ x = (k, v) ∨ (x ∈ s ∧ x.1 ≠ k) := by
  induction s with
  | nil => simp [mapInsert]
  | cons p rest ih =>
    obtain ⟨k0, v0⟩ := p
    obtain ⟨hhead, hrest⟩ := List.pairwise_cons.mp hs
    by_cases h1 : tupLt k k0 = true
    · have hins : mapInsert k v ((k0, v0) :: rest) = (k, v) :: (k0, v0) :: rest := by
        simp [mapInsert, h1]
      rw [hins]
      simp only [List.mem_cons]
      constructor
      · rintro (h | h | h)
        · exact Or.inl h
        · refine Or.inr ⟨Or.inl h, ?_⟩
          rw [h]
          exact fun he => ne_of_tupLt h1 he.symm
        · refine Or.inr ⟨Or.inr h, ?_⟩
          have hx := tupLt_trans h1 (hhead _ h)
          exact fun he => ne_of_tupLt hx he.symm
      · rintro (h | ⟨h | h, _⟩)
        · exact Or.inl h
        · exact Or.inr (Or.inl h)
        · exact Or.inr (Or.inr h)
    · by_cases h2 : k = k0
      · subst h2
        have hins : mapInsert k v ((k, v0) :: rest) = (k, v) :: rest := by
          simp [mapInsert, h1]
        rw [hins]
        simp only [List.mem_cons]
        constructor
        · rintro (h | h)
          · exact Or.inl h
          · exact Or.inr ⟨Or.inr h, fun he => ne_of_tupLt (hhead _ h) he.symm⟩
        · rintro (h | ⟨h | h, hne⟩)
          · exact Or.inl h
          · exact absurd (congrArg Prod.fst h) hne
          · exact Or.inr h
      · have hins : mapInsert k v ((k0, v0) :: rest) = (k0, v0) :: mapInsert k v rest := by
          simp [mapInsert, h1, h2]
        rw [hins]
        simp only [List.mem_cons]
        rw [ih hrest]
        constructor
        · rintro (h | h | h)
          · refine Or.inr ⟨Or.inl h, ?_⟩
            rw [h]
            exact fun he => h2 he.symm
          · exact Or.inl h
          · exact Or.inr ⟨Or.inr h.1, h.2⟩
        · rintro (h | ⟨h | h, hne⟩)
          · exact Or.inr (Or.inl h)
          · exact Or.inl h
          · exact Or.inr (Or.inr ⟨h, hne⟩)

theorem sorted_mapInsert {k v : Tuple} {s : Snapshot} (hs : SortedSnap s) :
    SortedSnap (mapInsert k v s) := by
  induction s with
  | nil => simp [mapInsert, SortedSnap]
  | cons p rest ih =>
    obtain ⟨k0, v0⟩ := p
    obtain ⟨hhead, hrest⟩ := List.pairwise_cons.mp hs
    by_cases h1 : tupLt k k0 = true
    · have hins : mapInsert k v ((k0, v0) :: rest) = (k, v) :: (k0, v0) :: rest := by
        simp [mapInsert, h1]
      rw [hins]
      refine List.Pairwise.cons ?_ hs
      rintro ⟨k1, v1⟩ h
      rcases List.mem_cons.mp h with h | h
      · have hk : k1 = k0 := congrArg Prod.fst h
        rw [hk]
        exact h1
      · exact tupLt_trans h1 (hhead _ h)
    · by_cases h2 : k = k0
      · subst h2
        have hins : mapInsert k v ((k, v0) :: rest) = (k, v) :: rest := by
          simp [mapInsert, h1]
        rw [hins]
        exact List.Pairwise.cons hhead hrest
      · have hins : mapInsert k v ((k0, v0) :: rest) = (k0, v0) :: mapInsert k v rest := by
          simp [mapInsert, h1, h2]
        rw [hins]
        refine List.Pairwise.cons ?_ (ih hrest)
        rintro ⟨k1, v1⟩ h
        rw [mem_mapInsert hrest] at h
        rcases h with h | ⟨h, _⟩
        · have hk : k1 = k := congrArg Prod.fst h
          rw [hk]
          rcases tupLt_total h2 with h' | h'
          · exact absurd h' h1
          · exact h'
        · exact hhead _ h

theorem mapGet_eq_some_iff {k v : Tuple} {s : Snapshot} (hs : SortedSnap s) :
    mapGet k s = some v ↔ (k, v) ∈ s := by
  induction s with
  | nil => simp [mapGet]
  | cons p rest ih =>
    obtain ⟨k0, v0⟩ := p
    obtain ⟨hhead, hrest⟩ := List.pairwise_cons.mp hs
    by_cases h0 : k0 = k
    · subst h0
      have hget : mapGet k0 ((k0, v0) :: rest) = some v0 := by simp [mapGet]
      rw [hget]
      simp only [List.mem_cons, Option.some_inj]
      constructor
      · intro h
        exact Or.inl (by rw [h])
      · rintro (h | h)
        · exact ((Prod.ext_iff.mp h).2).symm
        · exfalso
          have hx := hhead _ h
          simp only at hx
          rw [tupLt_irrefl] at hx
          exact Bool.false_ne_true hx
    · have hget : mapGet k ((k0, v0) :: rest) = mapGet k rest := by simp [mapGet, h0]
      rw [hget, ih hrest]
      simp only [List.mem_cons]
      constructor
      · exact Or.inr
      · rintro (h | h)
        · exact absurd (congrArg Prod.fst h) (fun he => h0 he.symm)
        · exact h

theorem mapGet_isSome_iff {k : Tuple} {s : Snapshot} :
    (mapGet k s).isSome = true ↔ k ∈ s.map Prod.fst := by
  induction s with
  | nil => simp [mapGet]
  | cons p rest ih =>
    obtain ⟨k0, v0⟩ := p
    by_cases h0 : k0 = k
    · subst h0
      simp [mapGet]
    · have hne : ¬ k = k0 := fun he => h0 he.symm
      simp [mapGet, h0, hne, ih]

theorem length_mapInsert {k v : Tuple} {s : Snapshot} (hs : SortedSnap s) :
    (mapInsert k v s).length =
      if (mapGet k s).isSome then s.length else s.length + 1 := by
  induction s with
  | nil => simp [mapInsert, mapGet]
  | cons p rest ih =>
    obtain ⟨k0, v0⟩ := p
    obtain ⟨hhead, hrest⟩ := List.pairwise_cons.mp hs
    by_cases h1 : tupLt k k0 = true
    · have hget : mapGet k ((k0, v0) :: rest) = none := by
        have hne : ¬ k0 = k := fun he => ne_of_tupLt h1 he.symm
        have hrget : mapGet k rest = none := by
          cases hmg : mapGet k rest with
          | none => rfl
          | some w =>
            exfalso
            have hmem := (mapGet_eq_some_iff hrest).mp hmg
            have hlt := tupLt_trans h1 (hhead _ hmem)
            rw [tupLt_irrefl] at hlt
            exact Bool.false_ne_true hlt
        simp [mapGet, hne, hrget]
      have hins : mapInsert k v ((k0, v0) :: rest) = (k, v) :: (k0, v0) :: rest := by
        simp [mapInsert, h1]
      rw [hins, hget]
      simp
    · by_cases h2 : k = k0
      · subst h2
        have hins : mapInsert k v ((k, v0) :: rest) = (k, v) :: rest := by
          simp [mapInsert, h1]
        have hget : mapGet k ((k, v0) :: rest) = some v0 := by simp [mapGet]
        rw [hins, hget]
        simp
      · have hne : ¬ k0 = k := fun he => h2 he.symm
        have hins : mapInsert k v ((k0, v0) :: rest) = (k0, v0) :: mapInsert k v rest := by
          simp [mapInsert, h1, h2]
        have hget : mapGet k ((k0, v0) :: rest) = mapGet k rest := by simp [mapGet, hne]
        rw [hins, hget, List.length_cons, ih hrest]
        by_cases hg : (mapGet k rest).isSome <;> simp [hg]

theorem getD_replicate (m j : Nat) :
    (List.replicate m ([] : Snapshot)).getD j [] = [] := by
  induction m generalizing j with
  | zero => simp
  | succ n ih =>
    cases j with
    | zero => simp [List.replicate]
    | succ i => simp [List.replicate, ih]

theorem getD_ensure (e i : Nat) (db : List Snapshot) :
    (ensure_mem_db_for_epoch e db).getD i [] = db.getD i [] := by
  unfold ensure_mem_db_for_epoch
  by_cases h : i < db.length
  · rw [List.getD_append _ _ _ _ h]
  · push_neg at h
    rw [List.getD_eq_default _ _ h]
    rw [List.getD_append_right _ _ _ _ h]
    exact getD_replicate _ _

theorem length_ensure (e : Nat) (db : List Snapshot) :
    (ensure_mem_db_for_epoch e db).length = max db.length (e + 1) := by
  unfold ensure_mem_db_for_epoch
  rw [List.length_append, List.length_replicate]
  omega

theorem epoch_lt_length_ensure (e : Nat) (db : List Snapshot) :
    e < (ensure_mem_db_for_epoch e db).length := by
  rw [length_ensure]
  omega

theorem getD_set_self {α : Type} {l : List α} {n : Nat} (h : n < l.length) (x d : α) :
    (l.set n x).getD n d = x := by
  induction l generalizing n with
  | nil => simp at h
  | cons a l ih =>
    cases n with
    | zero => simp
    | succ m =>
      simp only [List.set, List.getD_cons_succ]
      exact ih (by simpa using h) 

theorem getD_set_ne {α : Type} {l : List α} {n m : Nat} (h : m ≠ n) (x d : α) :
    (l.set n x).getD m d = l.getD m d := by
  induction l generalizing n m with
  | nil => simp
  | cons a l ih =>
    cases n with
    | zero =>
      cases m with
      | zero => exact absurd rfl h
      | succ j => simp
    | succ i =>
      cases m with
      | zero => simp
      | succ j =>
        simp only [List.set, List.getD_cons_succ]
        exact ih (fun he => h (by rw [he]))

theorem zip_guard_meet {aggrs : List (Option MeetOp)} {t : Tuple}
    (hlen : t.length = aggrs.length) :
    List.zipWith (fun ke ve => if ke = DataValue.Guard then ve else ke)
      (meetKey aggrs t) (meetStoreVal aggrs t) = t := by
  induction aggrs generalizing t with
  | nil =>
    cases t with
    | nil => rfl
    | cons x xs => simp at hlen
  | cons ma aggrs ih =>
    cases t with
    | nil => simp at hlen
    | cons x xs =>
      have hlen' : xs.length = aggrs.length := by simpa using hlen
      have ht := ih hlen'
      cases ma with
      | none =>
        by_cases hg : x = DataValue.Guard
        · subst hg
          simpa [meetKey, meetStoreVal] using ht
        · simpa [meetKey, meetStoreVal, hg] using ht
      | some op => simpa [meetKey, meetStoreVal] using ht

theorem reassemble_meet {aggrs : List (Option MeetOp)} {t : Tuple}
    (hlen : t.length = aggrs.length) :
    reassemble (meetKey aggrs t) (meetStoreVal aggrs t) = t := by
  unfold reassemble
  by_cases hv : meetStoreVal aggrs t = []
  · rw [if_pos hv]
    have hlt : t.length = 0 := by
      have hz := congrArg List.length hv
      simp only [meetStoreVal, List.length_zipWith, List.length_nil] at hz
      omega
    cases t with
    | nil => simp [meetKey]
    | cons _ _ => simp at hlt
  · rw [if_neg hv]
    exact zip_guard_meet hlen

theorem aggr_meet_put_eq_of_absent {t : Tuple} {aggrs : List (Option MeetOp)}
    {epoch : Nat} {db : List Snapshot}
    (h : mapGet (meetKey aggrs t) ((ensure_mem_db_for_epoch epoch db).getD 0 []) = none) :
    aggr_meet_put t aggrs epoch db =
      some
        (if epoch ≠ 0 then
          ((ensure_mem_db_for_epoch epoch db).set 0
            (mapInsert (meetKey aggrs t) (meetStoreVal aggrs t)
              ((ensure_mem_db_for_epoch epoch db).getD 0 []))).set epoch
            (mapInsert (meetKey aggrs t) (meetStoreVal aggrs t)
              (((ensure_mem_db_for_epoch epoch db).set 0
                (mapInsert (meetKey aggrs t) (meetStoreVal aggrs t)
                  ((ensure_mem_db_for_epoch epoch db).getD 0 []))).getD epoch []))
        else
          (ensure_mem_db_for_epoch epoch db).set 0
            (mapInsert (meetKey aggrs t) (meetStoreVal aggrs t)
              ((ensure_mem_db_for_epoch epoch db).getD 0 [])), true) := by
  simp only [aggr_meet_put]
  rw [h]

theorem aggr_meet_put_eq_of_present {t : Tuple} {aggrs : List (Option MeetOp)}
    {epoch : Nat} {db : List Snapshot} {prev : Tuple}
    (h : mapGet (meetKey aggrs t) ((ensure_mem_db_for_epoch epoch db).getD 0 []) = some prev) :
    aggr_meet_put t aggrs epoch db =
      match meetMergeRow aggrs prev t with
      | none => none
      | some (merged, changed) =>
        some
          (if changed = true ∧ epoch ≠ 0 then
            ((ensure_mem_db_for_epoch epoch db).set 0
              (mapInsert (meetKey aggrs t) merged
                ((ensure_mem_db_for_epoch epoch db).getD 0 []))).set epoch
              (mapInsert (meetKey aggrs t) merged
                (((ensure_mem_db_for_epoch epoch db).set 0
                  (mapInsert (meetKey aggrs t) merged
                    ((ensure_mem_db_for_epoch epoch db).getD 0 []))).getD epoch []))
          else
            (ensure_mem_db_for_epoch epoch db).set 0
              (mapInsert (meetKey aggrs t) merged
                ((ensure_mem_db_for_epoch epoch db).getD 0 [])), changed) := by
  simp only [aggr_meet_put]
  rw [h]

theorem aggr_meet_put_absent {t : Tuple} {aggrs : List (Option MeetOp)}
    {epoch : Nat} {db : List Snapshot}
    (habsent : mapGet (meetKey aggrs t) (db.getD 0 []) = none) :
    ∃ db2,
      aggr_meet_put t aggrs epoch db = some (db2, true) ∧
      mapGet (meetKey aggrs t) (db2.getD 0 []) = some (meetStoreVal aggrs t) ∧
      (epoch ≠ 0 →
        mapGet (meetKey aggrs t) (db2.getD epoch []) = some (meetStoreVal aggrs t)) ∧
      (∀ k, k ≠ meetKey aggrs t →
        mapGet k (db2.getD 0 []) = mapGet k (db.getD 0 [])) ∧
      (∀ k, k ≠ meetKey aggrs t →
        mapGet k (db2.getD epoch []) = mapGet k (db.getD epoch [])) := by
  have h0len : 0 < (ensure_mem_db_for_epoch epoch db).length := by
    have := epoch_lt_length_ensure epoch db
    omega
  have helen : epoch < (ensure_mem_db_for_epoch epoch db).length :=
    epoch_lt_length_ensure epoch db
  have hlook : mapGet (meetKey aggrs t)
      ((ensure_mem_db_for_epoch epoch db).getD 0 []) = none := by
    rw [getD_ensure]; exact habsent
  have heq := aggr_meet_put_eq_of_absent hlook
  by_cases he : epoch = 0
  · subst he
    rw [if_neg (fun hx : (0 : Nat) ≠ 0 => hx rfl)] at heq
    refine ⟨_, heq, ?_, ?_, ?_, ?_⟩
    · rw [getD_set_self h0len, mapGet_mapInsert_self]
    · intro h; exact absurd rfl h
    · intro k hk
      rw [getD_set_self h0len, mapGet_mapInsert_ne hk, getD_ensure]
    · intro k hk
      rw [getD_set_self h0len, mapGet_mapInsert_ne hk, getD_ensure]
  · have hne0 : (0 : Nat) ≠ epoch := fun hx => he hx.symm
    rw [if_pos he] at heq
    refine ⟨_, heq, ?_, ?_, ?_, ?_⟩
    · rw [getD_set_ne hne0, getD_set_self h0len, mapGet_mapInsert_self]
    · intro _
      rw [getD_set_self (by rw [List.length_set]; exact helen), mapGet_mapInsert_self]
    · intro k hk
      rw [getD_set_ne hne0, getD_set_self h0len, mapGet_mapInsert_ne hk, getD_ensure]
    · intro k hk
      rw [getD_set_self (by rw [List.length_set]; exact helen),
        mapGet_mapInsert_ne hk, getD_set_ne he, getD_ensure]

theorem aggr_meet_put_eq_present_err {t : Tuple} {aggrs : List (Option MeetOp)}
    {epoch : Nat} {db : List Snapshot} {prev : Tuple}
    (h : mapGet (meetKey aggrs t) ((ensure_mem_db_for_epoch epoch db).getD 0 []) = some prev)
    (hm : meetMergeRow aggrs prev t = none) :
    aggr_meet_put t aggrs epoch db = none := by
  have heq := aggr_meet_put_eq_of_present h
  rw [hm] at heq
  exact heq

theorem aggr_meet_put_eq_present_ok {t : Tuple} {aggrs : List (Option MeetOp)}
    {epoch : Nat} {db : List Snapshot} {prev merged : Tuple} {changed : Bool}
    (h : mapGet (meetKey aggrs t) ((ensure_mem_db_for_epoch epoch db).getD 0 []) = some prev)
    (hm : meetMergeRow aggrs prev t = some (merged, changed)) :
    aggr_meet_put t aggrs epoch db =
      some
        (if changed = true ∧ epoch ≠ 0 then
          ((ensure_mem_db_for_epoch epoch db).set 0
            (mapInsert (meetKey aggrs t) merged
              ((ensure_mem_db_for_epoch epoch db).getD 0 []))).set epoch
            (mapInsert (meetKey aggrs t) merged
              (((ensure_mem_db_for_epoch epoch db).set 0
                (mapInsert (meetKey aggrs t) merged
                  ((ensure_mem_db_for_epoch epoch db).getD 0 []))).getD epoch []))
        else
          (ensure_mem_db_for_epoch epoch db).set 0
            (mapInsert (meetKey aggrs t) merged
              ((ensure_mem_db_for_epoch epoch db).getD 0 [])), changed) := by
  have heq := aggr_meet_put_eq_of_present h
  rw [hm] at heq
  exact heq

theorem aggr_meet_put_present {t : Tuple} {aggrs : List (Option MeetOp)}
    {epoch : Nat} {db : List Snapshot} {prev : Tuple}
    (hprev : mapGet (meetKey aggrs t) (db.getD 0 []) = some prev) :
    (meetMergeRow aggrs prev t = none → aggr_meet_put t aggrs epoch db = none) ∧
    (∀ merged changed, meetMergeRow aggrs prev t = some (merged, changed) →
      ∃ db2,
        aggr_meet_put t aggrs epoch db = some (db2, changed) ∧
        mapGet (meetKey aggrs t) (db2.getD 0 []) = some merged ∧
        (changed = true → epoch ≠ 0 →
          mapGet (meetKey aggrs t) (db2.getD epoch []) = some merged) ∧
        (changed = false → epoch ≠ 0 → db2.getD epoch [] = db.getD epoch []) ∧
        (∀ k, k ≠ meetKey aggrs t →
          mapGet k (db2.getD 0 []) = mapGet k (db.getD 0 []))) := by
  have h0len : 0 < (ensure_mem_db_for_epoch epoch db).length := by
    have := epoch_lt_length_ensure epoch db
    omega
  have helen : epoch < (ensure_mem_db_for_epoch epoch db).length :=
    epoch_lt_length_ensure epoch db
  have hlook : mapGet (meetKey aggrs t)
      ((ensure_mem_db_for_epoch epoch db).getD 0 []) = some prev := by
    rw [getD_ensure]; exact hprev
  constructor
  · intro hmerge
    exact aggr_meet_put_eq_present_err hlook hmerge
  · intro merged changed hmerge
    have heq := aggr_meet_put_eq_present_ok hlook hmerge
    by_cases hc : changed = true ∧ epoch ≠ 0
    · obtain ⟨hct, he⟩ := hc
      rw [if_pos ⟨hct, he⟩] at heq
      refine ⟨_, heq, ?_, ?_, ?_, ?_⟩
      · rw [getD_set_ne (fun hx : (0 : Nat) = epoch => he hx.symm),
          getD_set_self h0len, mapGet_mapInsert_self]
      · intro _ _
        rw [getD_set_self (by rw [List.length_set]; exact helen), mapGet_mapInsert_self]
      · intro hcf _
        rw [hct] at hcf
        exact absurd hcf (by decide)
      · intro k hk
        rw [getD_set_ne (fun hx : (0 : Nat) = epoch => he hx.symm),
          getD_set_self h0len, mapGet_mapInsert_ne hk, getD_ensure]
    · rw [if_neg hc] at heq
      refine ⟨_, heq, ?_, ?_, ?_, ?_⟩
      · rw [getD_set_self h0len, mapGet_mapInsert_self]
      · intro hct he
        exact absurd ⟨hct, he⟩ hc
      · intro hcf he
        rw [getD_set_ne (fun hx : epoch = 0 => he hx), getD_ensure]
      · intro k hk
        rw [getD_set_self h0len, mapGet_mapInsert_ne hk, getD_ensure]

theorem meetMergeRow_comm {aggrs : List (Option MeetOp)} {r1 r2 : Tuple}
    (hlen1 : r1.length = aggrs.length) (hlen2 : r2.length = aggrs.length)
    (hcomm : ∀ op : MeetOp, some op ∈ aggrs → ∀ a b,
      (op a b).map Prod.fst = (op b a).map Prod.fst) :
    (meetMergeRow aggrs (meetStoreVal aggrs r1) r2).map Prod.fst
      = (meetMergeRow aggrs (meetStoreVal aggrs r2) r1).map Prod.fst := by
  induction aggrs generalizing r1 r2 with
  | nil =>
    cases r1 with
    | nil =>
      cases r2 with
      | nil => rfl
      | cons _ _ => simp at hlen2
    | cons _ _ => simp at hlen1
  | cons ma aggrs ih =>
    cases r1 with
    | nil => simp at hlen1
    | cons x xs =>
      cases r2 with
      | nil => simp at hlen2
      | cons y ys =>
        have hlen1' : xs.length = aggrs.length := by simpa using hlen1
        have hlen2' : ys.length = aggrs.length := by simpa using hlen2
        have hcomm' : ∀ op : MeetOp, some op ∈ aggrs → ∀ a b,
            (op a b).map Prod.fst = (op b a).map Prod.fst :=
          fun op hop => hcomm op (List.mem_cons_of_mem _ hop)
        have hih := ih hlen1' hlen2' hcomm'
        cases ma with
        | none =>
          have e1 : meetStoreVal (none :: aggrs) (x :: xs)
              = DataValue.Guard :: meetStoreVal aggrs xs := rfl
          have e2 : meetStoreVal (none :: aggrs) (y :: ys)
              = DataValue.Guard :: meetStoreVal aggrs ys := rfl
          rw [e1, e2]
          cases h1 : meetMergeRow aggrs (meetStoreVal aggrs xs) ys with
          | none =>
            rw [h1] at hih
            cases h2 : meetMergeRow aggrs (meetStoreVal aggrs ys) xs with
            | none => simp [meetMergeRow, h1, h2]
            | some p =>
              rw [h2] at hih
              simp at hih
          | some p =>
            rw [h1] at hih
            cases h2 : meetMergeRow aggrs (meetStoreVal aggrs ys) xs with
            | none =>
              rw [h2] at hih
              simp at hih
            | some q =>
              rw [h2] at hih
              obtain ⟨rest1, ch1⟩ := p
              obtain ⟨rest2, ch2⟩ := q
              have hr : rest1 = rest2 := by simpa using hih
              simp [meetMergeRow, h1, h2, hr]
        | some op =>
          have e1 : meetStoreVal (some op :: aggrs) (x :: xs)
              = x :: meetStoreVal aggrs xs := rfl
          have e2 : meetStoreVal (some op :: aggrs) (y :: ys)
              = y :: meetStoreVal aggrs ys := rfl
          rw [e1, e2]
          have hop := hcomm op (List.mem_cons_self _ _) x y
          cases hxy : op x y with
          | none =>
            rw [hxy] at hop
            cases hyx : op y x with
            | none => simp [meetMergeRow, hxy, hyx]
            | some p =>
              rw [hyx] at hop
              simp at hop
          | some p =>
            rw [hxy] at hop
            cases hyx : op y x with
            | none =>
              rw [hyx] at hop
              simp at hop
            | some q =>
              rw [hyx] at hop
              obtain ⟨v1, c1⟩ := p
              obtain ⟨v2, c2⟩ := q
              have hv : v1 = v2 := by simpa using hop
              cases h1 : meetMergeRow aggrs (meetStoreVal aggrs xs) ys with
              | none =>
                rw [h1] at hih
                cases h2 : meetMergeRow aggrs (meetStoreVal aggrs ys) xs with
                | none => simp [meetMergeRow, hxy, hyx, h1, h2]
                | some w =>
                  rw [h2] at hih
                  simp at hih
              | some w =>
                rw [h1] at hih
                cases h2 : meetMergeRow aggrs (meetStoreVal aggrs ys) xs with
                | none =>
                  rw [h2] at hih
                  simp at hih
                | some u =>
                  rw [h2] at hih
                  obtain ⟨rest1, d1⟩ := w
                  obtain ⟨rest2, d2⟩ := u
                  have hr : rest1 = rest2 := by simpa using hih
                  simp [meetMergeRow, hxy, hyx, h1, h2, hr, hv]

theorem sumMeetOp_comm (a b : DataValue) :
    (sumMeetOp a b).map Prod.fst = (sumMeetOp b a).map Prod.fst := by
  cases a <;> cases b <;> simp [sumMeetOp]
  omega

/-- Claim C1: `aggr_meet_put` builds the lookup key by keeping the tuple
value at every non-aggregated position and `Guard` at every aggregated one
(`meetKey`).  If the key is absent from epoch 0, the fresh row — whose
key/value pair reassembles to the input tuple — is stored into epoch 0 and,
when the requested epoch is non-zero, into that epoch too, and the call
returns `true`.  If the key is present, every aggregated position is
meet-merged into the epoch-0 accumulator, the merged row is additionally
written to the requested non-zero epoch exactly when some merge changed
state, the call returns the change flag, and epoch 0 holds the merged total
after the call. -/
theorem claim_c1_aggr_meet_put (t : Tuple) (aggrs : List (Option MeetOp))
    (epoch : Nat) (db : List Snapshot) (hlen : t.length = aggrs.length) :
    reassemble (meetKey aggrs t) (meetStoreVal aggrs t) = t ∧
    (mapGet (meetKey aggrs t) (db.getD 0 []) = none →
      ∃ db2,
        aggr_meet_put t aggrs epoch db = some (db2, true) ∧
        mapGet (meetKey aggrs t) (db2.getD 0 []) = some (meetStoreVal aggrs t) ∧
        (epoch ≠ 0 →
          mapGet (meetKey aggrs t) (db2.getD epoch []) = some (meetStoreVal aggrs t)) ∧
        (∀ k, k ≠ meetKey aggrs t →
          mapGet k (db2.getD 0 []) = mapGet k (db.getD 0 [])) ∧
        (∀ k, k ≠ meetKey aggrs t →
          mapGet k (db2.getD epoch []) = mapGet k (db.getD epoch []))) ∧
    (∀ prev, mapGet (meetKey aggrs t) (db.getD 0 []) = some prev →
      (meetMergeRow aggrs prev t = none → aggr_meet_put t aggrs epoch db = none) ∧
      (∀ merged changed, meetMergeRow aggrs prev t = some (merged, changed) →
        ∃ db2,
          aggr_meet_put t aggrs epoch db = some (db2, changed) ∧
          mapGet (meetKey aggrs t) (db2.getD 0 []) = some merged ∧
          (changed = true → epoch ≠ 0 →
            mapGet (meetKey aggrs t) (db2.getD epoch []) = some merged) ∧
          (changed = false → epoch ≠ 0 → db2.getD epoch [] = db.getD epoch []) ∧
          (∀ k, k ≠ meetKey aggrs t →
            mapGet k (db2.getD 0 []) = mapGet k (db.getD 0 [])))) :=
  ⟨reassemble_meet hlen,
    fun habsent => aggr_meet_put_absent habsent,
    fun _prev hprev => aggr_meet_put_present hprev⟩

/-- Witness for C1: a two-column row with a `sum` meet aggregate on the
second column, meet-put into epoch 2 of an empty store. -/
theorem claim_c1_aggr_meet_put_witness :
    ([DataValue.S "a", DataValue.I 3] : Tuple).length
      = ([none, some sumMeetOp] : List (Option MeetOp)).length ∧
    (mapGet (meetKey [none, some sumMeetOp] [DataValue.S "a", DataValue.I 3])
        (([] : List Snapshot).getD 0 []) = none) ∧
    (∃ db2,
      aggr_meet_put [DataValue.S "a", DataValue.I 3] [none, some sumMeetOp] 2 []
        = some (db2, true) ∧
      mapGet (meetKey [none, some sumMeetOp] [DataValue.S "a", DataValue.I 3])
        (db2.getD 0 [])
        = some (meetStoreVal [none, some sumMeetOp] [DataValue.S "a", DataValue.I 3]) ∧
      ((2 : Nat) ≠ 0 →
        mapGet (meetKey [none, some sumMeetOp] [DataValue.S "a", DataValue.I 3])
          (db2.getD 2 [])
          = some (meetStoreVal [none, some sumMeetOp] [DataValue.S "a", DataValue.I 3])) ∧
      (∀ k, k ≠ meetKey [none, some sumMeetOp] [DataValue.S "a", DataValue.I 3] →
        mapGet k (db2.getD 0 []) = mapGet k (([] : List Snapshot).getD 0 [])) ∧
      (∀ k, k ≠ meetKey [none, some sumMeetOp] [DataValue.S "a", DataValue.I 3] →
        mapGet k (db2.getD 2 []) = mapGet k (([] : List Snapshot).getD 2 []))) :=
  ⟨rfl, rfl,
    (claim_c1_aggr_meet_put [DataValue.S "a", DataValue.I 3]
      [none, some sumMeetOp] 2 [] rfl).2.1 rfl⟩

/-- Claim C5: for two rows with identical non-aggregated key columns and
commutative meet operations, meet-putting `r1` then `r2` starting from a
store where the key is absent leaves the same epoch-0 stored value at the
key as `r2` then `r1`; the two runs error together when a merge errs. -/
theorem claim_c5_meet_order_independent (aggrs : List (Option MeetOp))
    (r1 r2 : Tuple) (epoch : Nat) (db : List Snapshot)
    (hlen1 : r1.length = aggrs.length) (hlen2 : r2.length = aggrs.length)
    (hkey : meetKey aggrs r1 = meetKey aggrs r2)
    (hcomm : ∀ op : MeetOp, some op ∈ aggrs → ∀ a b,
      (op a b).map Prod.fst = (op b a).map Prod.fst)
    (habsent : mapGet (meetKey aggrs r1) (db.getD 0 []) = none) :
    ((aggr_meet_put r1 aggrs epoch db).bind
        (fun p => aggr_meet_put r2 aggrs epoch p.1)).map
      (fun p => mapGet (meetKey aggrs r1) (p.1.getD 0 []))
    = ((aggr_meet_put r2 aggrs epoch db).bind
        (fun p => aggr_meet_put r1 aggrs epoch p.1)).map
      (fun p => mapGet (meetKey aggrs r1) (p.1.getD 0 [])) := by
  obtain ⟨dbA, heqA, hgetA, _, _, _⟩ := @aggr_meet_put_absent r1 aggrs epoch db habsent
  have habsent2 : mapGet (meetKey aggrs r2) (db.getD 0 []) = none := by
    rw [← hkey]; exact habsent
  obtain ⟨dbB, heqB, hgetB, _, _, _⟩ := @aggr_meet_put_absent r2 aggrs epoch db habsent2
  have hprevA : mapGet (meetKey aggrs r2) (dbA.getD 0 [])
      = some (meetStoreVal aggrs r1) := by
    rw [← hkey]; exact hgetA
  have hprevB : mapGet (meetKey aggrs r1) (dbB.getD 0 [])
      = some (meetStoreVal aggrs r2) := by
    rw [hkey]; exact hgetB
  have hcmm := meetMergeRow_comm hlen1 hlen2 hcomm
  cases hm1 : meetMergeRow aggrs (meetStoreVal aggrs r1) r2 with
  | none =>
    have hm2 : meetMergeRow aggrs (meetStoreVal aggrs r2) r1 = none := by
      rw [hm1] at hcmm
      cases hx : meetMergeRow aggrs (meetStoreVal aggrs r2) r1 with
      | none => rfl
      | some p =>
        rw [hx] at hcmm
        simp at hcmm
    have e1 := (@aggr_meet_put_present r2 aggrs epoch dbA _ hprevA).1 hm1
    have e2 := (@aggr_meet_put_present r1 aggrs epoch dbB _ hprevB).1 hm2
    rw [heqA, heqB]
    show (aggr_meet_put r2 aggrs epoch dbA).map
        (fun p => mapGet (meetKey aggrs r1) (p.1.getD 0 []))
      = (aggr_meet_put r1 aggrs epoch dbB).map
        (fun p => mapGet (meetKey aggrs r1) (p.1.getD 0 []))
    rw [e1, e2]
  | some p =>
    obtain ⟨m1, c1⟩ := p
    rw [hm1] at hcmm
    cases hm2 : meetMergeRow aggrs (meetStoreVal aggrs r2) r1 with
    | none =>
      rw [hm2] at hcmm
      simp at hcmm
    | some q =>
      obtain ⟨m2, c2⟩ := q
      rw [hm2] at hcmm
      have hm : m1 = m2 := by simpa using hcmm
      obtain ⟨dbA2, heqA2, hgetA2, _, _, _⟩ :=
        (@aggr_meet_put_present r2 aggrs epoch dbA _ hprevA).2 m1 c1 hm1
      obtain ⟨dbB2, heqB2, hgetB2, _, _, _⟩ :=
        (@aggr_meet_put_present r1 aggrs epoch dbB _ hprevB).2 m2 c2 hm2
      have hgetA2' : mapGet (meetKey aggrs r1) (dbA2.getD 0 []) = some m1 := by
        rw [hkey]; exact hgetA2
      have eL : ((aggr_meet_put r1 aggrs epoch db).bind
          (fun p => aggr_meet_put r2 aggrs epoch p.1)).map
          (fun p => mapGet (meetKey aggrs r1) (p.1.getD 0 []))
          = some (mapGet (meetKey aggrs r1) (dbA2.getD 0 [])) := by
        rw [heqA]
        show (aggr_meet_put r2 aggrs epoch dbA).map
          (fun p => mapGet (meetKey aggrs r1) (p.1.getD 0 [])) = _
        rw [heqA2]
        rfl
      have eR : ((aggr_meet_put r2 aggrs epoch db).bind
          (fun p => aggr_meet_put r1 aggrs epoch p.1)).map
          (fun p => mapGet (meetKey aggrs r1) (p.1.getD 0 []))
          = some (mapGet (meetKey aggrs r1) (dbB2.getD 0 [])) := by
        rw [heqB]
        show (aggr_meet_put r1 aggrs epoch dbB).map
          (fun p => mapGet (meetKey aggrs r1) (p.1.getD 0 [])) = _
        rw [heqB2]
        rfl
      rw [eL, eR, hgetA2', hgetB2, hm]

/-- Witness for C5: two rows sharing the key column `"a"`, a `sum` meet
aggregate on the second column, epoch 1, empty store. -/
theorem claim_c5_meet_order_independent_witness :
    (mapGet (meetKey [none, some sumMeetOp] [DataValue.S "a", DataValue.I 3])
      (([] : List Snapshot).getD 0 []) = none) ∧
    ((aggr_meet_put [DataValue.S "a", DataValue.I 3] [none, some sumMeetOp] 1 []).bind
        (fun p => aggr_meet_put [DataValue.S "a", DataValue.I 4]
          [none, some sumMeetOp] 1 p.1)).map
      (fun p => mapGet (meetKey [none, some sumMeetOp]
        [DataValue.S "a", DataValue.I 3]) (p.1.getD 0 []))
    = ((aggr_meet_put [DataValue.S "a", DataValue.I 4] [none, some sumMeetOp] 1 []).bind
        (fun p => aggr_meet_put [DataValue.S "a", DataValue.I 3]
          [none, some sumMeetOp] 1 p.1)).map
      (fun p => mapGet (meetKey [none, some sumMeetOp]
        [DataValue.S "a", DataValue.I 3]) (p.1.getD 0 [])) :=
  ⟨rfl,
    claim_c5_meet_order_independent [none, some sumMeetOp]
      [DataValue.S "a", DataValue.I 3] [DataValue.S "a", DataValue.I 4] 1 []
      rfl rfl rfl
      (by
        intro op hop a b
        simp only [List.mem_cons, List.not_mem_nil, or_false] at hop
        rcases hop with h | h
        · exact absurd h (by simp)
        · rw [Option.some_inj.mp h]
          exact sumMeetOp_comm a b)
      rfl⟩

theorem kvGet_kvPut_self (k v : PTuple) (s : KV) : kvGet k (kvPut k v s) = some v := by
  simp [kvGet, kvPut, List.find?]

theorem find_filter_ne {k k' : PTuple} (hkn : ¬ k = k') (s : KV) :
    List.find? (fun p => decide (p.1 = k')) (s.filter (fun p => decide (p.1 ≠ k)))
      = List.find? (fun p => decide (p.1 = k')) s := by
  induction s with
  | nil => rfl
  | cons p rest ih =>
    by_cases hp : p.1 = k
    · have hp' : ¬ p.1 = k' := by rw [hp]; exact hkn
      rw [List.filter_cons, if_neg (by simpa using hp)]
      rw [List.find?_cons_of_neg _ (by simpa using hp')]
      exact ih
    · rw [List.filter_cons, if_pos (by simpa using hp)]
      by_cases hq : p.1 = k'
      · rw [List.find?_cons_of_pos _ (by simpa using hq),
          List.find?_cons_of_pos _ (by simpa using hq)]
      · rw [List.find?_cons_of_neg _ (by simpa using hq),
          List.find?_cons_of_neg _ (by simpa using hq)]
        exact ih

theorem kvGet_kvPut_ne {k k' : PTuple} (hne : k' ≠ k) (v : PTuple) (s : KV) :
    kvGet k' (kvPut k v s) = kvGet k' s := by
  have hkn : ¬ k = k' := fun he => hne he.symm
  unfold kvGet kvPut
  rw [List.find?_cons_of_neg _ (by simpa using hkn)]
  rw [find_filter_ne hkn]

theorem stGet_stPut_self (b : Bool) (k v : PTuple) (s : InsState) :
    stGet b k (stPut b k v s) = some v := by
  cases b <;> simp [stGet, stPut, kvGet_kvPut_self]

theorem stGet_stPut_indep {b b2 : Bool} {k' k : PTuple}
    (h : b ≠ b2 ∨ k' ≠ k) (v : PTuple) (s : InsState) :
    stGet b k' (stPut b2 k v s) = stGet b k' s := by
  have hk : b = b2 → k' ≠ k := by
    intro hb
    rcases h with h | h
    · exact absurd hb h
    · exact h
  cases b <;> cases b2 <;> simp only [stGet, stPut]
  · exact kvGet_kvPut_ne (hk rfl) v s.temp
  · exact kvGet_kvPut_ne (hk rfl) v s.root

theorem evalChain_append {ρ : Type} (a b : List (Extractor ρ)) (row : ρ) :
    evalChain (a ++ b) row =
      (evalChain a row).bind (fun va => (evalChain b row).map (fun vb => va ++ vb)) := by
  induction a with
  | nil =>
    cases hb : evalChain b row <;> simp [evalChain, hb]
  | cons f rest ih =>
    show evalChain (f :: (rest ++ b)) row = _
    cases hf : f row with
    | none => simp [evalChain, hf]
    | some v =>
      cases hr : evalChain rest row with
      | none =>
        have hz : evalChain (rest ++ b) row = none := by
          rw [ih, hr]
          rfl
        simp [evalChain, hf, hr, hz]
      | some vs =>
        cases hb : evalChain b row with
        | none =>
          have hz : evalChain (rest ++ b) row = none := by
            rw [ih, hr, hb]
            rfl
          simp [evalChain, hf, hr, hb, hz]
        | some vb =>
          have hz : evalChain (rest ++ b) row = some (vs ++ vb) := by
            rw [ih, hr, hb]
            rfl
          simp [evalChain, hf, hr, hb, hz]

theorem eval_to_tuple_pfx {ρ : Type} {pfx : Nat} {builder : List (Extractor ρ)}
    {row : ρ} {k : PTuple} (h : eval_to_tuple pfx builder row = some k) :
    k.pfx = pfx := by
  unfold eval_to_tuple at h
  cases hc : evalChain builder row with
  | none =>
    rw [hc] at h
    simp at h
  | some cs =>
    rw [hc] at h
    have h2 : PTuple.mk pfx cs = k := by simpa using h
    rw [← h2]

theorem insertRowStep_conflict {ρ : Type} {targetTid : TableId}
    {keyB valB : List (Extractor ρ)} {invB : Option (List (Extractor ρ))}
    {assocBs : List (TableId × List (Extractor ρ))} {row : ρ} {s : InsState}
    {key val : PTuple}
    (hk : eval_to_tuple targetTid.id keyB row = some key)
    (hv : eval_to_tuple dataKindData valB row = some val)
    (hex : (stGet targetTid.inRoot key s).isSome = true) :
    insertRowStep false targetTid keyB valB invB assocBs row s
      = (s, Except.error (InsErr.KeyConflict key)) := by
  simp only [insertRowStep, hk, hv]
  simp [hex]

theorem insertRowStep_ok_node {ρ : Type} {upsert : Bool} {targetTid : TableId}
    {keyB valB : List (Extractor ρ)}
    {assocBs : List (TableId × List (Extractor ρ))} {row : ρ} {s : InsState}
    {key val : PTuple}
    (hk : eval_to_tuple targetTid.id keyB row = some key)
    (hv : eval_to_tuple dataKindData valB row = some val)
    (hok : ¬(upsert = false ∧ (stGet targetTid.inRoot key s).isSome = true)) :
    insertRowStep upsert targetTid keyB valB none assocBs row s
      = finishRow targetTid key val row assocBs (stPut targetTid.inRoot key val s) := by
  simp only [insertRowStep, hk, hv]
  rw [if_neg hok]

theorem insertRowStep_ok_edge {ρ : Type} {upsert : Bool} {targetTid : TableId}
    {keyB valB b : List (Extractor ρ)}
    {assocBs : List (TableId × List (Extractor ρ))} {row : ρ} {s : InsState}
    {key val invKey : PTuple}
    (hk : eval_to_tuple targetTid.id keyB row = some key)
    (hv : eval_to_tuple dataKindData valB row = some val)
    (hinv : eval_to_tuple targetTid.id b row = some invKey)
    (hok : ¬(upsert = false ∧ (stGet targetTid.inRoot key s).isSome = true)) :
    insertRowStep upsert targetTid keyB valB (some b) assocBs row s
      = finishRow targetTid key val row assocBs
          (stPut targetTid.inRoot invKey key (stPut targetTid.inRoot key val s)) := by
  simp only [insertRowStep, hk, hv]
  rw [if_neg hok]
  simp only [hinv]

theorem finishRow_nil {ρ : Type} (targetTid : TableId) (key val : PTuple) (row : ρ)
    (s : InsState) :
    finishRow targetTid key val row [] s
      = (s, Except.ok (TupleSetOut.mk [PTuple.mk targetTid.id key.cols] [val])) := rfl

theorem finishRow_single {ρ : Type} {targetTid atid : TableId} {key val av : PTuple}
    {row : ρ} {ab : List (Extractor ρ)} {s : InsState}
    (ha : eval_to_tuple dataKindData ab row = some av) :
    finishRow targetTid key val row [(atid, ab)] s
      = (stPut atid.inRoot (PTuple.mk atid.id key.cols) av s,
         Except.ok (TupleSetOut.mk [PTuple.mk targetTid.id key.cols] [val, av])) := by
  simp only [finishRow, assoc_writes, ha]

/-- Claim C2: in insert mode, a row whose primary key is already present in
the selected store (root when the table's root flag is set, temp otherwise)
fails with `KeyConflict` carrying that key and writes nothing for the row;
in upsert mode a duplicate key never fails and the second row's value
replaces the first's stored value. -/
theorem claim_c2_insert_conflict_upsert {ρ : Type} (targetTid : TableId)
    (keyB valB : List (Extractor ρ)) (invB : Option (List (Extractor ρ)))
    (assocBs : List (TableId × List (Extractor ρ)))
    (row row1 row2 : ρ) (s : InsState) (key val v1 v2 : PTuple)
    (hk : eval_to_tuple targetTid.id keyB row = some key)
    (hv : eval_to_tuple dataKindData valB row = some val)
    (hk1 : eval_to_tuple targetTid.id keyB row1 = some key)
    (hv1 : eval_to_tuple dataKindData valB row1 = some v1)
    (hk2 : eval_to_tuple targetTid.id keyB row2 = some key)
    (hv2 : eval_to_tuple dataKindData valB row2 = some v2) :
    (∀ v0, stGet targetTid.inRoot key s = some v0 →
      insertRowStep false targetTid keyB valB invB assocBs row s
        = (s, Except.error (InsErr.KeyConflict key))) ∧
    (∃ s1 out1 s2 out2,
      insertRowStep true targetTid keyB valB none [] row1 s = (s1, Except.ok out1) ∧
      insertRowStep true targetTid keyB valB none [] row2 s1 = (s2, Except.ok out2) ∧
      stGet targetTid.inRoot key s2 = some v2) := by
  constructor
  · intro v0 h0
    exact insertRowStep_conflict hk hv (by rw [h0]; rfl)
  · refine ⟨stPut targetTid.inRoot key v1 s,
      TupleSetOut.mk [PTuple.mk targetTid.id key.cols] [v1],
      stPut targetTid.inRoot key v2 (stPut targetTid.inRoot key v1 s),
      TupleSetOut.mk [PTuple.mk targetTid.id key.cols] [v2], ?_, ?_, ?_⟩
    · rw [insertRowStep_ok_node hk1 hv1 (by simp), finishRow_nil]
    · rw [insertRowStep_ok_node hk2 hv2 (by simp), finishRow_nil]
    · rw [stGet_stPut_self]

/-- Witness for C2: a one-column key, two upsert rows carrying different
values, plus the insert-mode conflict conjunct, at a concrete store. -/
theorem claim_c2_insert_conflict_upsert_witness :
    (eval_to_tuple (TableId.mk 7 true).id [constEx (DataValue.I 5)] false
      = some (PTuple.mk 7 [DataValue.I 5])) ∧
    ((∀ v0, stGet true (PTuple.mk 7 [DataValue.I 5]) (InsState.mk [] []) = some v0 →
      insertRowStep false (TableId.mk 7 true) [constEx (DataValue.I 5)]
        [boolValEx]
        none [] false (InsState.mk [] [])
        = (InsState.mk [] [], Except.error (InsErr.KeyConflict (PTuple.mk 7 [DataValue.I 5])))) ∧
    (∃ s1 out1 s2 out2,
      insertRowStep true (TableId.mk 7 true) [constEx (DataValue.I 5)]
        [boolValEx]
        none [] false (InsState.mk [] []) = (s1, Except.ok out1) ∧
      insertRowStep true (TableId.mk 7 true) [constEx (DataValue.I 5)]
        [boolValEx]
        none [] true s1 = (s2, Except.ok out2) ∧
      stGet true (PTuple.mk 7 [DataValue.I 5]) s2
        = some (PTuple.mk dataKindData [DataValue.I 20]))) :=
  ⟨rfl,
    claim_c2_insert_conflict_upsert (TableId.mk 7 true) [constEx (DataValue.I 5)]
      [boolValEx]
      none [] false false true (InsState.mk [] [])
      (PTuple.mk 7 [DataValue.I 5]) (PTuple.mk dataKindData [DataValue.I 10])
      (PTuple.mk dataKindData [DataValue.I 10]) (PTuple.mk dataKindData [DataValue.I 20])
      rfl rfl rfl rfl rfl rfl⟩

theorem evalChain_edge_shape {ρ : Type} (i : Nat)
    (aKeys bKeys cKeys : List (Extractor ρ)) (row : ρ)
    {avs bvs cvs : List DataValue}
    (ha : evalChain aKeys row = some avs)
    (hb : evalChain bKeys row = some bvs)
    (hc : evalChain cKeys row = some cvs) :
    evalChain (constEx (DataValue.I (Int.ofNat i)) ::
        (aKeys ++ constEx (DataValue.B true) :: (bKeys ++ cKeys))) row
      = some (DataValue.I (Int.ofNat i) ::
        (avs ++ DataValue.B true :: (bvs ++ cvs))) := by
  have h1 : evalChain (bKeys ++ cKeys) row = some (bvs ++ cvs) := by
    rw [evalChain_append, hb, hc]
    rfl
  have h2 : evalChain (constEx (DataValue.B true) :: (bKeys ++ cKeys)) row
      = some (DataValue.B true :: (bvs ++ cvs)) := by
    simp [evalChain, constEx, h1]
  have h3 : evalChain (aKeys ++ constEx (DataValue.B true) :: (bKeys ++ cKeys)) row
      = some (avs ++ DataValue.B true :: (bvs ++ cvs)) := by
    rw [evalChain_append, ha, h2]
    rfl
  simp [evalChain, constEx, h3]

/-- Claim C3: for an edge insertion row, the forward key evaluates to
`[src-table-id, src node key cols, true, dst node key cols, edge key cols]`,
the inverse key to `[dst-table-id, dst node key cols, true, src node key
cols, edge key cols]`, and the operator writes forward-key→edge-value and
inverse-key→forward-key into the selected store. -/
theorem claim_c3_edge_insertion {ρ : Type} (upsert : Bool) (targetTid : TableId)
    (srcId dstId : Nat) (srcKeys dstKeys edgeKeys valB : List (Extractor ρ))
    (row : ρ) (s : InsState)
    (srcVals dstVals edgeVals : List DataValue) (val : PTuple)
    (hsrc : evalChain srcKeys row = some srcVals)
    (hdst : evalChain dstKeys row = some dstVals)
    (hedge : evalChain edgeKeys row = some edgeVals)
    (hval : eval_to_tuple dataKindData valB row = some val)
    (hne : PTuple.mk targetTid.id (DataValue.I (Int.ofNat dstId) ::
        (dstVals ++ DataValue.B true :: (srcVals ++ edgeVals)))
      ≠ PTuple.mk targetTid.id (DataValue.I (Int.ofNat srcId) ::
        (srcVals ++ DataValue.B true :: (dstVals ++ edgeVals))))
    (hok : ¬(upsert = false ∧
      (stGet targetTid.inRoot (PTuple.mk targetTid.id (DataValue.I (Int.ofNat srcId) ::
        (srcVals ++ DataValue.B true :: (dstVals ++ edgeVals)))) s).isSome = true)) :
    eval_to_tuple targetTid.id (edgeKeyBuilder srcId srcKeys dstKeys edgeKeys) row
      = some (PTuple.mk targetTid.id (DataValue.I (Int.ofNat srcId) ::
          (srcVals ++ DataValue.B true :: (dstVals ++ edgeVals)))) ∧
    eval_to_tuple targetTid.id (edgeInvKeyBuilder dstId srcKeys dstKeys edgeKeys) row
      = some (PTuple.mk targetTid.id (DataValue.I (Int.ofNat dstId) ::
          (dstVals ++ DataValue.B true :: (srcVals ++ edgeVals)))) ∧
    (∃ s2 out,
      insertRowStep upsert targetTid (edgeKeyBuilder srcId srcKeys dstKeys edgeKeys)
        valB (some (edgeInvKeyBuilder dstId srcKeys dstKeys edgeKeys)) [] row s
        = (s2, Except.ok out) ∧
      stGet targetTid.inRoot
        (PTuple.mk targetTid.id (DataValue.I (Int.ofNat srcId) ::
          (srcVals ++ DataValue.B true :: (dstVals ++ edgeVals)))) s2 = some val ∧
      stGet targetTid.inRoot
        (PTuple.mk targetTid.id (DataValue.I (Int.ofNat dstId) ::
          (dstVals ++ DataValue.B true :: (srcVals ++ edgeVals)))) s2
        = some (PTuple.mk targetTid.id (DataValue.I (Int.ofNat srcId) ::
          (srcVals ++ DataValue.B true :: (dstVals ++ edgeVals))))) := by
  have hkeyev : eval_to_tuple targetTid.id
      (edgeKeyBuilder srcId srcKeys dstKeys edgeKeys) row
      = some (PTuple.mk targetTid.id (DataValue.I (Int.ofNat srcId) ::
        (srcVals ++ DataValue.B true :: (dstVals ++ edgeVals)))) := by
    unfold eval_to_tuple edgeKeyBuilder
    rw [evalChain_edge_shape srcId srcKeys dstKeys edgeKeys row hsrc hdst hedge]
    rfl
  have hinvev : eval_to_tuple targetTid.id
      (edgeInvKeyBuilder dstId srcKeys dstKeys edgeKeys) row
      = some (PTuple.mk targetTid.id (DataValue.I (Int.ofNat dstId) ::
        (dstVals ++ DataValue.B true :: (srcVals ++ edgeVals)))) := by
    unfold eval_to_tuple edgeInvKeyBuilder
    rw [evalChain_edge_shape dstId dstKeys srcKeys edgeKeys row hdst hsrc hedge]
    rfl
  refine ⟨hkeyev, hinvev,
    stPut targetTid.inRoot
      (PTuple.mk targetTid.id (DataValue.I (Int.ofNat dstId) ::
        (dstVals ++ DataValue.B true :: (srcVals ++ edgeVals))))
      (PTuple.mk targetTid.id (DataValue.I (Int.ofNat srcId) ::
        (srcVals ++ DataValue.B true :: (dstVals ++ edgeVals))))
      (stPut targetTid.inRoot
        (PTuple.mk targetTid.id (DataValue.I (Int.ofNat srcId) ::
          (srcVals ++ DataValue.B true :: (dstVals ++ edgeVals)))) val s),
    TupleSetOut.mk [PTuple.mk targetTid.id (DataValue.I (Int.ofNat srcId) ::
      (srcVals ++ DataValue.B true :: (dstVals ++ edgeVals)))] [val], ?_, ?_, ?_⟩
  · rw [insertRowStep_ok_edge hkeyev hval hinvev hok, finishRow_nil]
  · rw [stGet_stPut_indep (Or.inr (fun he => hne he.symm)), stGet_stPut_self]
  · rw [stGet_stPut_self]

/-- Witness for C3: a concrete edge row with one src key column, one dst key
column, no edge key columns, written in upsert mode to the temp store. -/
theorem claim_c3_edge_insertion_witness :
    (evalChain [constEx (DataValue.I 10)] () = some [DataValue.I 10]) ∧
    (eval_to_tuple (TableId.mk 5 false).id
        (edgeKeyBuilder 1 [constEx (DataValue.I 10)] [constEx (DataValue.I 20)] [])
        ()
      = some (PTuple.mk 5 (DataValue.I (Int.ofNat 1) ::
          ([DataValue.I 10] ++ DataValue.B true :: ([DataValue.I 20] ++ [])))) ∧
    eval_to_tuple (TableId.mk 5 false).id
        (edgeInvKeyBuilder 2 [constEx (DataValue.I 10)] [constEx (DataValue.I 20)] [])
        ()
      = some (PTuple.mk 5 (DataValue.I (Int.ofNat 2) ::
          ([DataValue.I 20] ++ DataValue.B true :: ([DataValue.I 10] ++ [])))) ∧
    (∃ s2 out,
      insertRowStep true (TableId.mk 5 false)
        (edgeKeyBuilder 1 [constEx (DataValue.I 10)] [constEx (DataValue.I 20)] [])
        [constEx (DataValue.I 99)]
        (some (edgeInvKeyBuilder 2 [constEx (DataValue.I 10)] [constEx (DataValue.I 20)] []))
        [] () (InsState.mk [] []) = (s2, Except.ok out) ∧
      stGet (TableId.mk 5 false).inRoot
        (PTuple.mk 5 (DataValue.I (Int.ofNat 1) ::
          ([DataValue.I 10] ++ DataValue.B true :: ([DataValue.I 20] ++ [])))) s2
        = some (PTuple.mk dataKindData [DataValue.I 99]) ∧
      stGet (TableId.mk 5 false).inRoot
        (PTuple.mk 5 (DataValue.I (Int.ofNat 2) ::
          ([DataValue.I 20] ++ DataValue.B true :: ([DataValue.I 10] ++ [])))) s2
        = some (PTuple.mk 5 (DataValue.I (Int.ofNat 1) ::
          ([DataValue.I 10] ++ DataValue.B true :: ([DataValue.I 20] ++ [])))))) :=
  ⟨rfl,
    claim_c3_edge_insertion true (TableId.mk 5 false) 1 2
      [constEx (DataValue.I 10)] [constEx (DataValue.I 20)] []
      [constEx (DataValue.I 99)] () (InsState.mk [] [])
      [DataValue.I 10] [DataValue.I 20] [] (PTuple.mk dataKindData [DataValue.I 99])
      rfl rfl rfl rfl (by decide) (by simp)⟩

/-- Claim C10: the insert-mode duplicate probe consults only the primary
key — the row fails (with `KeyConflict` on that key) precisely when the
primary key is present in the selected store — while the inverse edge key
and every association row are written without any conflict check, so a
pre-existing inverse-key entry or association row whose primary key is
absent is silently overwritten. -/
theorem claim_c10_probe_primary_only {ρ : Type} (targetTid atid : TableId)
    (keyB valB b ab : List (Extractor ρ)) (row : ρ) (s : InsState)
    (key val invKey av w wa : PTuple)
    (hk : eval_to_tuple targetTid.id keyB row = some key)
    (hv : eval_to_tuple dataKindData valB row = some val)
    (hinv : eval_to_tuple targetTid.id b row = some invKey)
    (ha : eval_to_tuple dataKindData ab row = some av)
    (hii : invKey ≠ key)
    (hat : atid.id ≠ targetTid.id)
    (hw : stGet targetTid.inRoot invKey s = some w)
    (hwa : stGet atid.inRoot (PTuple.mk atid.id key.cols) s = some wa) :
    (∀ v0, stGet targetTid.inRoot key s = some v0 →
      insertRowStep false targetTid keyB valB (some b) [(atid, ab)] row s
        = (s, Except.error (InsErr.KeyConflict key))) ∧
    (stGet targetTid.inRoot key s = none →
      ∃ s2 out,
        insertRowStep false targetTid keyB valB (some b) [(atid, ab)] row s
          = (s2, Except.ok out) ∧
        stGet targetTid.inRoot invKey s2 = some key ∧
        stGet atid.inRoot (PTuple.mk atid.id key.cols) s2 = some av) := by
  have hkp : key.pfx = targetTid.id := eval_to_tuple_pfx hk
  have hip : invKey.pfx = targetTid.id := eval_to_tuple_pfx hinv
  constructor
  · intro v0 h0
    exact insertRowStep_conflict hk hv (by rw [h0]; rfl)
  · intro h0
    have hok : ¬(false = false ∧ (stGet targetTid.inRoot key s).isSome = true) := by
      rw [h0]
      simp
    refine ⟨stPut atid.inRoot (PTuple.mk atid.id key.cols) av
      (stPut targetTid.inRoot invKey key (stPut targetTid.inRoot key val s)),
      TupleSetOut.mk [PTuple.mk targetTid.id key.cols] [val, av], ?_, ?_, ?_⟩
    · rw [insertRowStep_ok_edge hk hv hinv hok, finishRow_single ha]
    · have hne1 : invKey ≠ PTuple.mk atid.id key.cols := by
        intro he
        have := congrArg PTuple.pfx he
        rw [hip] at this
        exact hat (this.symm)
      rw [stGet_stPut_indep (Or.inr hne1), stGet_stPut_self]
    · rw [stGet_stPut_self]

/-- Witness for C10: concrete insert into the temp store where the inverse
key and the association row pre-exist while the primary key is absent. -/
theorem claim_c10_probe_primary_only_witness :
    (stGet false (PTuple.mk 5 [DataValue.I 2]) (InsState.mk []
        [(PTuple.mk 5 [DataValue.I 2], PTuple.mk 0 [DataValue.I 111]),
         (PTuple.mk 9 [DataValue.I 1], PTuple.mk 0 [DataValue.I 222])])
      = some (PTuple.mk 0 [DataValue.I 111])) ∧
    ((∀ v0, stGet false (PTuple.mk 5 [DataValue.I 1]) (InsState.mk []
        [(PTuple.mk 5 [DataValue.I 2], PTuple.mk 0 [DataValue.I 111]),
         (PTuple.mk 9 [DataValue.I 1], PTuple.mk 0 [DataValue.I 222])]) = some v0 →
      insertRowStep false (TableId.mk 5 false) [constEx (DataValue.I 1)]
        [constEx (DataValue.I 99)] (some [constEx (DataValue.I 2)])
        [(TableId.mk 9 false, [constEx (DataValue.I 7)])] ()
        (InsState.mk []
          [(PTuple.mk 5 [DataValue.I 2], PTuple.mk 0 [DataValue.I 111]),
           (PTuple.mk 9 [DataValue.I 1], PTuple.mk 0 [DataValue.I 222])])
        = (InsState.mk []
          [(PTuple.mk 5 [DataValue.I 2], PTuple.mk 0 [DataValue.I 111]),
           (PTuple.mk 9 [DataValue.I 1], PTuple.mk 0 [DataValue.I 222])],
          Except.error (InsErr.KeyConflict (PTuple.mk 5 [DataValue.I 1])))) ∧
    (stGet false (PTuple.mk 5 [DataValue.I 1]) (InsState.mk []
        [(PTuple.mk 5 [DataValue.I 2], PTuple.mk 0 [DataValue.I 111]),
         (PTuple.mk 9 [DataValue.I 1], PTuple.mk 0 [DataValue.I 222])]) = none →
      ∃ s2 out,
        insertRowStep false (TableId.mk 5 false) [constEx (DataValue.I 1)]
          [constEx (DataValue.I 99)] (some [constEx (DataValue.I 2)])
          [(TableId.mk 9 false, [constEx (DataValue.I 7)])] ()
          (InsState.mk []
            [(PTuple.mk 5 [DataValue.I 2], PTuple.mk 0 [DataValue.I 111]),
             (PTuple.mk 9 [DataValue.I 1], PTuple.mk 0 [DataValue.I 222])])
          = (s2, Except.ok out) ∧
        stGet false (PTuple.mk 5 [DataValue.I 2]) s2 = some (PTuple.mk 5 [DataValue.I 1]) ∧
        stGet false (PTuple.mk 9 (PTuple.mk 5 [DataValue.I 1]).cols) s2
          = some (PTuple.mk 0 [DataValue.I 7]))) :=
  ⟨rfl,
    claim_c10_probe_primary_only (TableId.mk 5 false) (TableId.mk 9 false)
      [constEx (DataValue.I 1)] [constEx (DataValue.I 99)]
      [constEx (DataValue.I 2)] [constEx (DataValue.I 7)] ()
      (InsState.mk []
        [(PTuple.mk 5 [DataValue.I 2], PTuple.mk 0 [DataValue.I 111]),
         (PTuple.mk 9 [DataValue.I 1], PTuple.mk 0 [DataValue.I 222])])
      (PTuple.mk 5 [DataValue.I 1]) (PTuple.mk 0 [DataValue.I 99])
      (PTuple.mk 5 [DataValue.I 2]) (PTuple.mk 0 [DataValue.I 7])
      (PTuple.mk 0 [DataValue.I 111]) (PTuple.mk 0 [DataValue.I 222])
      rfl rfl rfl rfl (by decide) (by decide) rfl rfl⟩

/-! ### Scans (src/runtime/derived.rs) -/

theorem tupLt_cons_same (x : DataValue) (a b : Tuple) :
    tupLt (x :: a) (x :: b) = tupLt a b := by
  simp [tupLt]

theorem tupLt_append_self (p r : Tuple) : tupLt (p ++ r) p = false := by
  induction p with
  | nil =>
    cases r <;> rfl
  | cons x p' ih => simp [tupLt, ih]

theorem tupLt_append_both (a x y : Tuple) :
    tupLt (a ++ x) (a ++ y) = tupLt x y := by
  induction a with
  | nil => rfl
  | cons c a' ih => simp [tupLt, ih]

/-- Counterexample to claim C8 as stated: `scan_sorted` iterates epoch 0 in
key order, so a store whose smaller key holds the larger value emits a
sequence that is not nondecreasing in value-tuple order. -/
theorem claim_c8_counterexample :
    scan_sorted (put_kv [DataValue.I 0] [DataValue.I 5] 0
        (put_kv [DataValue.I 1] [DataValue.I 3] 0 []))
      = [[DataValue.I 5], [DataValue.I 3]] ∧
    tupLe [DataValue.I 5] [DataValue.I 3] = false := by
  constructor
  · rfl
  · rfl

/-- Claim C8, amended: `scan_sorted` yields exactly one tuple per epoch-0
row, namely its value tuple, in ascending order of the rows' keys (not of
their values). -/
theorem claim_c8_amended_scan_sorted (db : List Snapshot)
    (hs : SortedSnap (db.getD 0 [])) :
    scan_sorted db = (db.getD 0 []).map Prod.snd ∧
    (scan_sorted db).length = (db.getD 0 []).length ∧
    (∀ i j : Fin (db.getD 0 ([] : Snapshot)).length, i < j →
      tupLt ((db.getD 0 []).get i).1 ((db.getD 0 []).get j).1 = true) := by
  refine ⟨?_, ?_, ?_⟩
  · unfold scan_sorted
    rw [getD_ensure]
  · unfold scan_sorted
    rw [getD_ensure, List.length_map]
  · intro i j hij
    exact List.pairwise_iff_get.mp hs i j hij

/-- Witness for the amended C8 theorem at a concrete two-row store. -/
theorem claim_c8_amended_scan_sorted_witness :
    SortedSnap (([[([DataValue.I 0], [DataValue.I 5]),
        ([DataValue.I 1], [DataValue.I 3])]] : List Snapshot).getD 0 []) ∧
    scan_sorted [[([DataValue.I 0], [DataValue.I 5]),
        ([DataValue.I 1], [DataValue.I 3])]]
      = (([[([DataValue.I 0], [DataValue.I 5]),
          ([DataValue.I 1], [DataValue.I 3])]] : List Snapshot).getD 0 []).map Prod.snd :=
  ⟨by decide,
    (claim_c8_amended_scan_sorted [[([DataValue.I 0], [DataValue.I 5]),
      ([DataValue.I 1], [DataValue.I 3])]] (by decide)).1⟩

theorem range_of_extends (p rest : Tuple) (hbot : DataValue.Bot ∉ rest) :
    tupLe p (p ++ rest) = true ∧ tupLe (p ++ rest) (p ++ [DataValue.Bot]) = true := by
  constructor
  · simp [tupLe, tupLt_append_self]
  · rw [tupLe, tupLt_append_both]
    cases rest with
    | nil => rfl
    | cons h t =>
      have hne : DataValue.Bot ≠ h := by
        intro he
        exact hbot (by rw [← he]; exact List.mem_cons_self _ _)
      simp [tupLt, hne, dvLt_bot_false]

theorem take_of_range : ∀ (p k : Tuple), DataValue.Bot ∉ k →
    tupLe p k = true → tupLe k (p ++ [DataValue.Bot]) = true →
    k.take p.length = p
  | [], k, _, _, _ => by simp
  | a :: p', [], _, h1, _ => by simp [tupLe, tupLt] at h1
  | a :: p', b :: k', hbot, h1, h2 => by
    by_cases hab : a = b
    · subst hab
      have hbot' : DataValue.Bot ∉ k' := fun hm => hbot (List.mem_cons_of_mem _ hm)
      have h1' : tupLe p' k' = true := by
        rw [tupLe] at h1 ⊢
        rw [tupLt_cons_same] at h1
        exact h1
      have h2' : tupLe k' (p' ++ [DataValue.Bot]) = true := by
        rw [tupLe] at h2 ⊢
        have : (a :: p') ++ [DataValue.Bot] = a :: (p' ++ [DataValue.Bot]) := rfl
        rw [this, tupLt_cons_same] at h2
        exact h2
      have ih := take_of_range p' k' hbot' h1' h2'
      simp [List.take, ih]
    · rcases dvLt_total hab with h | h
      · have hlt : tupLt ((a :: p') ++ [DataValue.Bot]) (b :: k') = true := by
          have : (a :: p') ++ [DataValue.Bot] = a :: (p' ++ [DataValue.Bot]) := rfl
          rw [this]
          simp [tupLt, hab, h]
        rw [tupLe, hlt] at h2
        simp at h2
      · have hba : ¬ b = a := fun he => hab he.symm
        have hlt : tupLt (b :: k') (a :: p') = true := by
          simp [tupLt, hba, h]
        rw [tupLe, hlt] at h1
        simp at h1

/-- Claim C9: assuming stored keys never contain the `Bot` sentinel (which
compares greater than every ordinary value), the closed-range scan of
`scan_prefix_for_epoch` returns exactly the stored rows whose key extends
the prefix, reassembled, in store order — regardless of how many trailing
columns each key has. -/
theorem claim_c9_scan_prefix_for_epoch (p : Tuple) (epoch : Nat)
    (db : List Snapshot)
    (hbot : ∀ q ∈ db.getD epoch ([] : Snapshot), DataValue.Bot ∉ q.1) :
    scan_prefix_for_epoch p epoch db
      = ((db.getD epoch []).filter (fun q => decide (q.1.take p.length = p))).map
          (fun q => reassemble q.1 q.2) := by
  unfold scan_prefix_for_epoch
  rw [getD_ensure]
  congr 1
  apply List.filter_congr
  intro q hq
  have hb := hbot q hq
  by_cases ht : q.1.take p.length = p
  · have hk : q.1 = p ++ q.1.drop p.length := by
      conv_lhs => rw [← List.take_append_drop p.length q.1]
      rw [ht]
    have hbd : DataValue.Bot ∉ q.1.drop p.length :=
      fun hm => hb (List.mem_of_mem_drop hm)
    obtain ⟨hl, hr⟩ := range_of_extends p (q.1.drop p.length) hbd
    rw [decide_eq_true ht]
    rw [hk] at hl hr ⊢
    rw [← hk] at hl hr ⊢
    rw [hk, hl, hr]
    rfl
  · rw [decide_eq_false ht]
    cases hand : (tupLe p q.1 && tupLe q.1 (p ++ [DataValue.Bot])) with
    | false => rfl
    | true =>
      rw [Bool.and_eq_true] at hand
      exact absurd (take_of_range p q.1 hb hand.1 hand.2) ht

/-- Witness for C9: a prefix scan over three stored rows, two of which
extend the prefix `[1]` with differing numbers of trailing columns. -/
theorem claim_c9_scan_prefix_for_epoch_witness :
    (∀ q ∈ ([[([DataValue.I 1, DataValue.I 1], []),
        ([DataValue.I 1, DataValue.I 2, DataValue.I 3], []),
        ([DataValue.I 2, DataValue.I 5], [])]] : List Snapshot).getD 0 ([] : Snapshot),
      DataValue.Bot ∉ q.1) ∧
    scan_prefix_for_epoch [DataValue.I 1] 0
        [[([DataValue.I 1, DataValue.I 1], []),
          ([DataValue.I 1, DataValue.I 2, DataValue.I 3], []),
          ([DataValue.I 2, DataValue.I 5], [])]]
      = ((([[([DataValue.I 1, DataValue.I 1], []),
          ([DataValue.I 1, DataValue.I 2, DataValue.I 3], []),
          ([DataValue.I 2, DataValue.I 5], [])]] : List Snapshot).getD 0 []).filter
            (fun q => decide (q.1.take ([DataValue.I 1] : Tuple).length
              = [DataValue.I 1]))).map
          (fun q => reassemble q.1 q.2) :=
  ⟨by decide,
    claim_c9_scan_prefix_for_epoch [DataValue.I 1] 0
      [[([DataValue.I 1, DataValue.I 1], []),
        ([DataValue.I 1, DataValue.I 2, DataValue.I 3], []),
        ([DataValue.I 2, DataValue.I 5], [])]]
      (by decide)⟩

theorem processGroups_poison (aggrs : List (Option NormalAggr)) (inv : List Nat) :
    ∀ (groups : List (List Tuple)) (store : List Snapshot),
      (∃ g, g ∈ groups ∧ 2 ≤ g.length) →
      processGroups aggrs inv true groups none store = none := by
  intro groups
  induction groups with
  | nil =>
    intro store h
    obtain ⟨g, hg, _⟩ := h
    exact absurd hg (List.not_mem_nil g)
  | cons g rest ih =>
    intro store h
    match g with
    | [] => rfl
    | [x] =>
      have hwit : ∃ g, g ∈ rest ∧ 2 ≤ g.length := by
        obtain ⟨g0, hg0, hlen⟩ := h
        rcases List.mem_cons.mp hg0 with he | hm
        · rw [he] at hlen
          simp at hlen
        · exact ⟨g0, hm, hlen⟩
      show processGroups aggrs inv true ([x] :: rest) none store = none
      simp only [processGroups]
      rw [if_neg (by simp)]
      cases hc : computeResult aggrs inv x [x] with
      | none => simp [hc]
      | some res =>
        simp only [hc]
        exact ih _ hwit
    | x :: y :: tl =>
      show processGroups aggrs inv true ((x :: y :: tl) :: rest) none store = none
      simp only [processGroups]
      rw [if_pos (by simp)]

/-- Counterexample to claim C7 as stated: the cancellation flag is only
polled between rows inside a group, so over a relation whose single group
has a single row, a pass with cancellation already requested completes
successfully instead of aborting. -/
theorem claim_c7_counterexample :
    normal_aggr_scan_and_put [some sumAggr]
      (normal_aggr_put [DataValue.I 5] [some sumAggr] 0 []) none true []
      = some (false, [[([DataValue.I 5], [])]], none) := by
  decide

/-- Claim C7, amended: the cancellation flag is polled once per input row
after the first row of each group; whenever cancellation has been requested
and some group of the scanned relation holds at least two rows, the
un-limited pass aborts with a propagated error rather than returning a
result. -/
theorem claim_c7_amended_poison (aggrs : List (Option NormalAggr))
    (db store : List Snapshot)
    (hgrp : ∃ g, g ∈ groupsFn (nKeys aggrs) (scanRows db) ∧ 2 ≤ g.length) :
    normal_aggr_scan_and_put aggrs db none true store = none :=
  processGroups_poison aggrs (invertIdx aggrs) _ store hgrp

/-- Witness for the amended C7 theorem: two rows in one group, cancellation
requested, pass errors. -/
theorem claim_c7_amended_poison_witness :
    (∃ g, g ∈ groupsFn (nKeys ([some sumAggr] : List (Option NormalAggr)))
        (scanRows (normal_aggr_put [DataValue.I 2] [some sumAggr] 1
          (normal_aggr_put [DataValue.I 1] [some sumAggr] 0 []))) ∧ 2 ≤ g.length) ∧
    normal_aggr_scan_and_put [some sumAggr]
      (normal_aggr_put [DataValue.I 2] [some sumAggr] 1
        (normal_aggr_put [DataValue.I 1] [some sumAggr] 0 [])) none true [] = none :=
  ⟨by decide,
    claim_c7_amended_poison [some sumAggr]
      (normal_aggr_put [DataValue.I 2] [some sumAggr] 1
        (normal_aggr_put [DataValue.I 1] [some sumAggr] 0 [])) [] (by decide)⟩

/-- Claim C6: with a limiter supplied, a group's result row consumes
capacity only when it is novel in the destination (a duplicate is
suppressed without increment and the scan moves on unchanged); the limiter
is incremented on novel insertions, and as soon as it signals enough rows
the scan stops before processing any further group and returns `true`;
capacity 1 signals on the first novel row. -/
theorem claim_c6_limiter (aggrs : List (Option NormalAggr)) (db dest : List Snapshot)
    (gs : List (List Tuple)) (first : Tuple) (others : List Tuple) (r1 : Tuple)
    (hg : groupsFn (nKeys aggrs) (scanRows db) = (first :: others) :: gs)
    (hr : computeResult aggrs (invertIdx aggrs) first (first :: others) = some r1) :
    (∀ l : QueryLimiter, (QueryLimiter.incr l).2 = true →
      (mapGet r1 ((ensure_mem_db_for_epoch 0 dest).getD 0 [])).isSome = false →
      normal_aggr_scan_and_put aggrs db (some l) false dest
        = some (true, put r1 0 (ensure_mem_db_for_epoch 0 dest),
            some (QueryLimiter.incr l).1)) ∧
    (∀ l : QueryLimiter, (QueryLimiter.incr l).2 = false →
      (mapGet r1 ((ensure_mem_db_for_epoch 0 dest).getD 0 [])).isSome = false →
      normal_aggr_scan_and_put aggrs db (some l) false dest
        = processGroups aggrs (invertIdx aggrs) false gs
            (some (QueryLimiter.incr l).1)
            (put r1 0 (ensure_mem_db_for_epoch 0 dest))) ∧
    (∀ l : QueryLimiter,
      (mapGet r1 ((ensure_mem_db_for_epoch 0 dest).getD 0 [])).isSome = true →
      normal_aggr_scan_and_put aggrs db (some l) false dest
        = processGroups aggrs (invertIdx aggrs) false gs (some l)
            (ensure_mem_db_for_epoch 0 dest)) ∧
    (QueryLimiter.incr (QueryLimiter.mk 1 0)).2 = true := by
  refine ⟨?_, ?_, ?_, rfl⟩
  · intro l hl hnov
    unfold normal_aggr_scan_and_put
    rw [hg]
    simp only [processGroups]
    rw [if_neg (by simp)]
    simp only [hr, hnov, Bool.false_eq_true, if_false, hl, if_true]
  · intro l hl hnov
    unfold normal_aggr_scan_and_put
    rw [hg]
    simp only [processGroups]
    rw [if_neg (by simp)]
    simp only [hr, hnov, Bool.false_eq_true, if_false, hl]
  · intro l hdup
    unfold normal_aggr_scan_and_put
    rw [hg]
    simp only [processGroups]
    rw [if_neg (by simp)]
    simp only [hr, hdup, if_true]

/-- Witness for C6: capacity 1 over the two-group fixture stores exactly the
first group's result row and reports early termination. -/
theorem claim_c6_limiter_witness :
    (groupsFn (nKeys exAggrs) (scanRows exDb)
      = [[[DataValue.I 0, DataValue.I 1, DataValue.I 0],
          [DataValue.I 0, DataValue.I 2, DataValue.I 1],
          [DataValue.I 0, DataValue.I 3, DataValue.I 2]],
         [[DataValue.I 1, DataValue.I 10, DataValue.I 3]]]) ∧
    normal_aggr_scan_and_put exAggrs exDb (some (QueryLimiter.mk 1 0)) false []
      = some (true, put [DataValue.I 0, DataValue.I 6] 0 (ensure_mem_db_for_epoch 0 []),
          some (QueryLimiter.incr (QueryLimiter.mk 1 0)).1) := by
  constructor
  · decide
  · exact (claim_c6_limiter exAggrs exDb []
      [[[DataValue.I 1, DataValue.I 10, DataValue.I 3]]]
      [DataValue.I 0, DataValue.I 1, DataValue.I 0]
      [[DataValue.I 0, DataValue.I 2, DataValue.I 1],
       [DataValue.I 0, DataValue.I 3, DataValue.I 2]]
      [DataValue.I 0, DataValue.I 6] (by decide) (by decide)).1
      (QueryLimiter.mk 1 0) (by decide) (by decide)

/-! ### C4 support: index bookkeeping for the reorder/invert permutation -/

theorem noneIdxsFrom_shift (aggrs : List (Option NormalAggr)) :
    ∀ b, noneIdxsFrom aggrs (b + 1) = (noneIdxsFrom aggrs b).map (fun x => x + 1) := by
  induction aggrs with
  | nil => intro b; rfl
  | cons ma rest ih =>
    intro b
    cases ma with
    | none => simp [noneIdxsFrom, ih (b + 1)]
    | some _ => simp [noneIdxsFrom, ih (b + 1)]

theorem someIdxsFrom_shift (aggrs : List (Option NormalAggr)) :
    ∀ b, someIdxsFrom aggrs (b + 1) = (someIdxsFrom aggrs b).map (fun x => x + 1) := by
  induction aggrs with
  | nil => intro b; rfl
  | cons ma rest ih =>
    intro b
    cases ma with
    | none => simp [someIdxsFrom, ih (b + 1)]
    | some _ => simp [someIdxsFrom, ih (b + 1)]

theorem nonAggVals_eq_map {aggrs : List (Option NormalAggr)} {t : Tuple}
    (hlen : t.length = aggrs.length) :
    nonAggVals aggrs t
      = (noneIdxsFrom aggrs 0).map (fun p => t.getD p DataValue.Guard) := by
  induction aggrs generalizing t with
  | nil =>
    cases t with
    | nil => rfl
    | cons _ _ => simp at hlen
  | cons ma rest ih =>
    cases t with
    | nil => simp at hlen
    | cons x xs =>
      have hlen' : xs.length = rest.length := by simpa using hlen
      cases ma with
      | none =>
        show x :: nonAggVals rest xs = _
        rw [show noneIdxsFrom (none :: rest) 0 = 0 :: noneIdxsFrom rest 1 from rfl]
        rw [noneIdxsFrom_shift rest 0]
        simp only [List.map_cons, List.map_map]
        rw [ih hlen']
        simp [Function.comp]
      | some ag =>
        show nonAggVals rest xs = _
        rw [show noneIdxsFrom (some ag :: rest) 0 = noneIdxsFrom rest 1 from rfl]
        rw [noneIdxsFrom_shift rest 0]
        simp only [List.map_map]
        rw [ih hlen']
        simp [Function.comp]

theorem aggVals_eq_map {aggrs : List (Option NormalAggr)} {t : Tuple}
    (hlen : t.length = aggrs.length) :
    aggVals aggrs t
      = (someIdxsFrom aggrs 0).map (fun p => t.getD p DataValue.Guard) := by
  induction aggrs generalizing t with
  | nil =>
    cases t with
    | nil => rfl
    | cons _ _ => simp at hlen
  | cons ma rest ih =>
    cases t with
    | nil => simp at hlen
    | cons x xs =>
      have hlen' : xs.length = rest.length := by simpa using hlen
      cases ma with
      | none =>
        show aggVals rest xs = _
        rw [show someIdxsFrom (none :: rest) 0 = someIdxsFrom rest 1 from rfl]
        rw [someIdxsFrom_shift rest 0]
        simp only [List.map_map]
        rw [ih hlen']
        simp [Function.comp]
      | some ag =>
        show x :: aggVals rest xs = _
        rw [show someIdxsFrom (some ag :: rest) 0 = 0 :: someIdxsFrom rest 1 from rfl]
        rw [someIdxsFrom_shift rest 0]
        simp only [List.map_cons, List.map_map]
        rw [ih hlen']
        simp [Function.comp]

theorem reorderTuple_eq_map {aggrs : List (Option NormalAggr)} {t : Tuple}
    (hlen : t.length = aggrs.length) :
    reorderTuple aggrs t
      = (reorderIdx aggrs).map (fun p => t.getD p DataValue.Guard) := by
  unfold reorderTuple reorderIdx
  rw [List.map_append, nonAggVals_eq_map hlen, aggVals_eq_map hlen]

theorem length_noneIdxsFrom (aggrs : List (Option NormalAggr)) :
    ∀ b, (noneIdxsFrom aggrs b).length = nKeys aggrs := by
  induction aggrs with
  | nil => intro b; rfl
  | cons ma rest ih =>
    intro b
    cases ma with
    | none => simp [noneIdxsFrom, nKeys, List.countP_cons, ih (b + 1)]
    | some _ => simp [noneIdxsFrom, nKeys, List.countP_cons, ih (b + 1)]

theorem length_someIdxsFrom (aggrs : List (Option NormalAggr)) :
    ∀ b, (someIdxsFrom aggrs b).length = aggrs.countP (fun a => a.isSome) := by
  induction aggrs with
  | nil => intro b; rfl
  | cons ma rest ih =>
    intro b
    cases ma with
    | none => simp [someIdxsFrom, List.countP_cons, ih (b + 1)]
    | some _ => simp [someIdxsFrom, List.countP_cons, ih (b + 1)]

theorem length_reorderIdx (aggrs : List (Option NormalAggr)) :
    (reorderIdx aggrs).length = aggrs.length := by
  unfold reorderIdx
  rw [List.length_append, length_noneIdxsFrom, length_someIdxsFrom]
  induction aggrs with
  | nil => rfl
  | cons ma rest ih =>
    cases ma with
    | none => simp [nKeys, List.countP_cons] at ih ⊢; omega
    | some _ => simp [nKeys, List.countP_cons] at ih ⊢; omega

theorem mem_reorderIdx_of_lt {aggrs : List (Option NormalAggr)} {j : Nat}
    (h : j < aggrs.length) : j ∈ reorderIdx aggrs := by
  induction aggrs generalizing j with
  | nil => simp at h
  | cons ma rest ih =>
    unfold reorderIdx at ih ⊢
    cases j with
    | zero =>
      cases ma with
      | none =>
        apply List.mem_append_left
        exact List.mem_cons_self _ _
      | some _ =>
        apply List.mem_append_right
        exact List.mem_cons_self _ _
    | succ i =>
      have hi : i < rest.length := by simpa using h
      have hmem := ih hi
      rcases List.mem_append.mp hmem with hm | hm
      · cases ma with
        | none =>
          apply List.mem_append_left
          show i + 1 ∈ 0 :: noneIdxsFrom rest 1
          rw [noneIdxsFrom_shift rest 0]
          exact List.mem_cons_of_mem _ (List.mem_map_of_mem _ hm)
        | some _ =>
          apply List.mem_append_left
          show i + 1 ∈ noneIdxsFrom rest 1
          rw [noneIdxsFrom_shift rest 0]
          exact List.mem_map_of_mem _ hm
      · cases ma with
        | none =>
          apply List.mem_append_right
          show i + 1 ∈ someIdxsFrom rest 1
          rw [someIdxsFrom_shift rest 0]
          exact List.mem_map_of_mem _ hm
        | some _ =>
          apply List.mem_append_right
          show i + 1 ∈ 0 :: someIdxsFrom rest 1
          rw [someIdxsFrom_shift rest 0]
          exact List.mem_cons_of_mem _ (List.mem_map_of_mem _ hm)

theorem reorderIdx_perm_range (aggrs : List (Option NormalAggr)) :
    (List.range aggrs.length).Perm (reorderIdx aggrs) := by
  have hsub : List.range aggrs.length ⊆ reorderIdx aggrs := fun j hj =>
    mem_reorderIdx_of_lt (List.mem_range.mp hj)
  exact (List.subperm_of_subset (List.nodup_range _) hsub).perm_of_length_le
    (by rw [length_reorderIdx, List.length_range])

theorem invert_sorted_map_snd (aggrs : List (Option NormalAggr)) :
    (List.insertionSort (fun q r : Nat × Nat => q.2 ≤ r.2)
        (reorderIdx aggrs).enum).map Prod.snd = List.range aggrs.length := by
  haveI h1 : IsTotal (Nat × Nat) (fun q r => q.2 ≤ r.2) := ⟨fun a b => Nat.le_total a.2 b.2⟩
  haveI h2 : IsTrans (Nat × Nat) (fun q r => q.2 ≤ r.2) :=
    ⟨fun a b c ha hb => Nat.le_trans ha hb⟩
  haveI h3 : IsAntisymm Nat (fun a b : Nat => a < b) :=
    ⟨fun a b ha hb => absurd ha (Nat.lt_asymm hb)⟩
  have hperm : ((List.insertionSort (fun q r : Nat × Nat => q.2 ≤ r.2)
      (reorderIdx aggrs).enum).map Prod.snd).Perm (List.range aggrs.length) := by
    have hp := (List.perm_insertionSort (fun q r : Nat × Nat => q.2 ≤ r.2)
      (reorderIdx aggrs).enum).map Prod.snd
    rw [List.enum_map_snd] at hp
    exact hp.trans (reorderIdx_perm_range aggrs).symm
  have hle : List.Pairwise (fun a b : Nat => a ≤ b)
      ((List.insertionSort (fun q r : Nat × Nat => q.2 ≤ r.2)
        (reorderIdx aggrs).enum).map Prod.snd) :=
    List.pairwise_map.mpr (List.sorted_insertionSort _ _)
  have hnd : ((List.insertionSort (fun q r : Nat × Nat => q.2 ≤ r.2)
      (reorderIdx aggrs).enum).map Prod.snd).Nodup :=
    hperm.nodup_iff.mpr (List.nodup_range _)
  have hlt : List.Pairwise (fun a b : Nat => a < b)
      ((List.insertionSort (fun q r : Nat × Nat => q.2 ≤ r.2)
        (reorderIdx aggrs).enum).map Prod.snd) :=
    (hle.and hnd).imp (fun h => Nat.lt_of_le_of_ne h.1 h.2)
  exact List.eq_of_perm_of_sorted hperm hlt (List.pairwise_lt_range _)

theorem length_invertIdx (aggrs : List (Option NormalAggr)) :
    (invertIdx aggrs).length = aggrs.length := by
  unfold invertIdx
  rw [List.length_map, List.length_insertionSort, List.enum_length, length_reorderIdx]

theorem invertIdx_spec (aggrs : List (Option NormalAggr)) {j : Nat}
    (hj : j < aggrs.length) :
    (invertIdx aggrs).getD j 0 < aggrs.length ∧
      (reorderIdx aggrs).getD ((invertIdx aggrs).getD j 0) 0 = j := by
  have hlenSL : (List.insertionSort (fun q r : Nat × Nat => q.2 ≤ r.2)
      (reorderIdx aggrs).enum).length = aggrs.length := by
    rw [List.length_insertionSort, List.enum_length, length_reorderIdx]
  have hj2 : j < (List.insertionSort (fun q r : Nat × Nat => q.2 ≤ r.2)
      (reorderIdx aggrs).enum).length := by rw [hlenSL]; exact hj
  have hj3 : j < ((List.insertionSort (fun q r : Nat × Nat => q.2 ≤ r.2)
      (reorderIdx aggrs).enum).map Prod.fst).length := by
    rw [List.length_map]; exact hj2
  have hj4 : j < ((List.insertionSort (fun q r : Nat × Nat => q.2 ≤ r.2)
      (reorderIdx aggrs).enum).map Prod.snd).length := by
    rw [List.length_map]; exact hj2
  have hval : (invertIdx aggrs).getD j 0
      = ((List.insertionSort (fun q r : Nat × Nat => q.2 ≤ r.2)
          (reorderIdx aggrs).enum)[j]).1 := by
    unfold invertIdx
    rw [List.getD_eq_getElem _ _ hj3, List.getElem_map]
  have hsnd : ((List.insertionSort (fun q r : Nat × Nat => q.2 ≤ r.2)
      (reorderIdx aggrs).enum)[j]).2 = j := by
    have h6 : ((List.insertionSort (fun q r : Nat × Nat => q.2 ≤ r.2)
        (reorderIdx aggrs).enum).map Prod.snd).getD j 0 = j := by
      rw [invert_sorted_map_snd aggrs]
      rw [List.getD_eq_getElem _ _ (by simpa using hj)]
      exact List.getElem_range _ _
    rw [List.getD_eq_getElem _ _ hj4, List.getElem_map] at h6
    exact h6
  have hmemSL : (List.insertionSort (fun q r : Nat × Nat => q.2 ≤ r.2)
      (reorderIdx aggrs).enum)[j] ∈ (List.insertionSort (fun q r : Nat × Nat => q.2 ≤ r.2)
      (reorderIdx aggrs).enum) := List.getElem_mem _
  have hmem : (List.insertionSort (fun q r : Nat × Nat => q.2 ≤ r.2)
      (reorderIdx aggrs).enum)[j] ∈ (reorderIdx aggrs).enum :=
    (List.perm_insertionSort _ _).mem_iff.mp hmemSL
  have h7 := List.mem_enum_iff_getElem?.mp hmem
  rw [hsnd] at h7
  obtain ⟨hb, hv⟩ := List.getElem?_eq_some.mp h7
  constructor
  · rw [hval]
    rw [length_reorderIdx] at hb
    exact hb
  · rw [hval, List.getD_eq_getElem _ _ hb, hv]

theorem getD_map_lt {α β : Type} {l : List α} {n : Nat} (h : n < l.length)
    (f : α → β) (d : β) (d2 : α) : (l.map f).getD n d = f (l.getD n d2) := by
  have h2 : n < (l.map f).length := by rw [List.length_map]; exact h
  rw [List.getD_eq_getElem _ _ h2, List.getD_eq_getElem _ _ h, List.getElem_map]

theorem getD_take {α : Type} {l : List α} {n m : Nat} (h : n < m) (d : α) :
    (l.take m).getD n d = l.getD n d := by
  induction l generalizing n m with
  | nil => simp
  | cons a l ih =>
    cases m with
    | zero => exact absurd h (Nat.not_lt_zero n)
    | succ m2 =>
      cases n with
      | zero => simp
      | succ n2 =>
        simp only [List.take, List.getD_cons_succ]
        exact ih (Nat.lt_of_succ_lt_succ h) 

theorem normal_aggr_put_getD (t : Tuple) (aggrs : List (Option NormalAggr))
    (serial : Nat) (db : List Snapshot) :
    (normal_aggr_put t aggrs serial db).getD 0 []
      = mapInsert (reorderTuple aggrs t ++ [DataValue.I (Int.ofNat serial)]) []
          (db.getD 0 []) := by
  unfold normal_aggr_put
  rw [getD_set_self (epoch_lt_length_ensure 0 db), getD_ensure]

theorem put_getD (r : Tuple) (db : List Snapshot) :
    (put r 0 db).getD 0 [] = mapInsert r [] (db.getD 0 []) := by
  unfold put
  rw [getD_set_self (epoch_lt_length_ensure 0 db), getD_ensure]

theorem fold_put_getD (aggrs : List (Option NormalAggr)) :
    ∀ (ps : List (Nat × Tuple)) (db : List Snapshot),
      ((ps.foldl (fun db q => normal_aggr_put q.2 aggrs q.1 db) db)).getD 0 []
        = insertKeys (ps.map (storedKey aggrs)) (db.getD 0 []) := by
  intro ps
  induction ps with
  | nil => intro db; rfl
  | cons p ps ih =>
    intro db
    show ((ps.foldl _ (normal_aggr_put p.2 aggrs p.1 db))).getD 0 [] = _
    rw [ih (normal_aggr_put p.2 aggrs p.1 db)]
    rw [normal_aggr_put_getD]
    rfl

theorem buildNormalStore_getD (aggrs : List (Option NormalAggr)) (inputs : List Tuple) :
    (buildNormalStore aggrs inputs).getD 0 []
      = insertKeys (storedKeys aggrs inputs) [] := by
  unfold buildNormalStore storedKeys
  rw [fold_put_getD aggrs inputs.enum []]
  rfl

theorem sorted_insertKeys : ∀ (ks : List Tuple) {s : Snapshot}, SortedSnap s →
    SortedSnap (insertKeys ks s) := by
  intro ks
  induction ks with
  | nil => intro s hs; exact hs
  | cons k ks ih =>
    intro s hs
    exact ih (sorted_mapInsert hs)

theorem mem_insertKeys {x : Tuple × Tuple} :
    ∀ (ks : List Tuple) {s : Snapshot}, SortedSnap s →
      (x ∈ insertKeys ks s ↔ (x ∈ s ∧ x.1 ∉ ks) ∨ (x.2 = [] ∧ x.1 ∈ ks)) := by
  intro ks
  induction ks with
  | nil => intro s hs; simp [insertKeys]
  | cons k ks ih =>
    intro s hs
    have hstep : insertKeys (k :: ks) s = insertKeys ks (mapInsert k [] s) := rfl
    rw [hstep, ih (sorted_mapInsert hs)]
    have hmm := mem_mapInsert (k := k) (v := []) (x := x) hs
    have hx : x = (k, ([] : Tuple)) ↔ x.1 = k ∧ x.2 = [] := by
      constructor
      · intro h; rw [h]; exact ⟨rfl, rfl⟩
      · intro h
        obtain ⟨a, b⟩ := x
        simp only at h
        rw [h.1, h.2]
    rw [hmm, hx]
    simp only [List.mem_cons]
    by_cases h1 : x.1 = k <;> by_cases h2 : x.1 ∈ ks <;> simp [h1, h2] <;> tauto

theorem length_insertKeys_nodup :
    ∀ (ks : List Tuple) {s : Snapshot}, ks.Nodup → SortedSnap s →
      (∀ k ∈ ks, mapGet k s = none) →
      (insertKeys ks s).length = s.length + ks.length := by
  intro ks
  induction ks with
  | nil => intro s _ _ _; rfl
  | cons k ks ih =>
    intro s hnd hs hnone
    have hstep : insertKeys (k :: ks) s = insertKeys ks (mapInsert k [] s) := rfl
    rw [hstep]
    have hnd2 := List.nodup_cons.mp hnd
    have hnone2 : ∀ k2 ∈ ks, mapGet k2 (mapInsert k [] s) = none := by
      intro k2 hk2
      rw [mapGet_mapInsert_ne (fun he => hnd2.1 (by rw [he] at hk2; exact hk2)) [] s]
      exact hnone k2 (List.mem_cons_of_mem _ hk2)
    rw [ih hnd2.2 (sorted_mapInsert hs) hnone2]
    rw [length_mapInsert hs, hnone k (List.mem_cons_self _ _)]
    simp [Nat.add_assoc, Nat.add_comm 1]

theorem storedKeys_nodup (aggrs : List (Option NormalAggr)) (inputs : List Tuple) :
    (storedKeys aggrs inputs).Nodup := by
  unfold storedKeys
  have hnd : inputs.enum.Nodup := by
    apply List.Nodup.of_map Prod.fst
    rw [List.enum_map_fst]
    exact List.nodup_range _
  apply List.Nodup.map_on _ hnd
  intro x hx y hy hxy
  have hlast : DataValue.I (Int.ofNat x.1) = DataValue.I (Int.ofNat y.1) := by
    have h1 : (storedKey aggrs x).getLast? = some (DataValue.I (Int.ofNat x.1)) :=
      List.getLast?_concat _
    have h2 : (storedKey aggrs y).getLast? = some (DataValue.I (Int.ofNat y.1)) :=
      List.getLast?_concat _
    rw [hxy] at h1
    rw [h1] at h2
    exact Option.some.inj h2
  have hfst : x.1 = y.1 := by
    have h9 := DataValue.I.inj hlast
    exact Int.ofNat.inj h9
  have hx2 := List.mem_enum_iff_getElem?.mp hx
  have hy2 := List.mem_enum_iff_getElem?.mp hy
  rw [hfst] at hx2
  rw [hx2] at hy2
  exact Prod.ext hfst (Option.some.inj hy2)

theorem reassemble_nil (k : Tuple) : reassemble k [] = k := by
  simp [reassemble]

theorem scanRows_build (aggrs : List (Option NormalAggr)) (inputs : List Tuple) :
    scanRows (buildNormalStore aggrs inputs)
      = (insertKeys (storedKeys aggrs inputs) []).map Prod.fst := by
  unfold scanRows
  rw [buildNormalStore_getD]
  apply List.map_congr_left
  intro q hq
  have hmem := (mem_insertKeys (storedKeys aggrs inputs)
    (s := []) (List.Pairwise.nil)).mp hq
  rcases hmem with ⟨habs, _⟩ | ⟨hval, _⟩
  · exact absurd habs (List.not_mem_nil q)
  · rw [hval, reassemble_nil]

theorem sorted_scanRows_build (aggrs : List (Option NormalAggr)) (inputs : List Tuple) :
    List.Pairwise (fun a b => tupLt a b = true)
      (scanRows (buildNormalStore aggrs inputs)) := by
  rw [scanRows_build]
  exact List.Pairwise.map Prod.fst (fun a b h => h)
    (sorted_insertKeys _ List.Pairwise.nil)

theorem mem_scanRows_build {aggrs : List (Option NormalAggr)} {inputs : List Tuple}
    {r : Tuple} :
    r ∈ scanRows (buildNormalStore aggrs inputs) ↔ r ∈ storedKeys aggrs inputs := by
  rw [scanRows_build]
  constructor
  · intro h
    obtain ⟨q, hq, hqr⟩ := List.mem_map.mp h
    have hmem := (mem_insertKeys (storedKeys aggrs inputs)
      (s := []) (List.Pairwise.nil)).mp hq
    rcases hmem with ⟨habs, _⟩ | ⟨_, hk⟩
    · exact absurd habs (List.not_mem_nil q)
    · rw [← hqr]; exact hk
  · intro h
    apply List.mem_map.mpr
    refine ⟨(r, []), ?_, rfl⟩
    exact (mem_insertKeys (storedKeys aggrs inputs) (s := [])
      (List.Pairwise.nil)).mpr (Or.inr ⟨rfl, h⟩)

theorem scanRows_build_perm (aggrs : List (Option NormalAggr)) (inputs : List Tuple) :
    (scanRows (buildNormalStore aggrs inputs)).Perm (storedKeys aggrs inputs) := by
  have hnd1 : (scanRows (buildNormalStore aggrs inputs)).Nodup := by
    have hp := sorted_scanRows_build aggrs inputs
    exact hp.imp (fun h => ne_of_tupLt h)
  exact (List.perm_ext_iff_of_nodup hnd1 (storedKeys_nodup aggrs inputs)).mpr
    (fun a => mem_scanRows_build)

/-! ### C4 support: convexity of lexicographic order and grouping -/

theorem tupLt_append_of_lt : ∀ {a b : Tuple}, a.length = b.length →
    tupLt a b = true → ∀ (x y : Tuple), tupLt (a ++ x) (b ++ y) = true := by
  intro a
  induction a with
  | nil =>
    intro b hlen h x y
    cases b with
    | nil => rw [show tupLt [] [] = false from rfl] at h; exact absurd h (by simp)
    | cons v b2 => simp at hlen
  | cons u a2 ih =>
    intro b hlen h x y
    cases b with
    | nil => simp at hlen
    | cons v b2 =>
      by_cases he : u = v
      · subst he
        rw [tupLt_cons_same] at h
        show tupLt (u :: (a2 ++ x)) (u :: (b2 ++ y)) = true
        rw [tupLt_cons_same]
        exact ih (by simpa using hlen) h x y
      · have hd : dvLt u v = true := by
          have h2 : tupLt (u :: a2) (v :: b2) = (if u = v then tupLt a2 b2 else dvLt u v) :=
            rfl
          rw [h2, if_neg he] at h
          exact h
        show tupLt (u :: (a2 ++ x)) (v :: (b2 ++ y)) = true
        have h3 : tupLt (u :: (a2 ++ x)) (v :: (b2 ++ y))
            = (if u = v then tupLt (a2 ++ x) (b2 ++ y) else dvLt u v) := rfl
        rw [h3, if_neg he]
        exact hd

theorem tupLe_of_append_lt {a b : Tuple} (hlen : a.length = b.length) {x y : Tuple}
    (h : tupLt (a ++ x) (b ++ y) = true) : tupLe a b = true := by
  unfold tupLe
  by_cases hba : tupLt b a = true
  · have h2 := tupLt_append_of_lt hlen.symm hba y x
    rw [tupLt_asymm h2] at h
    exact absurd h (by simp)
  · simp [Bool.eq_false_iff.mpr hba]

theorem take_eq_of_between (n : Nat) : ∀ {a b c : Tuple}, a.length = b.length →
    b.length = c.length → tupLe a b = true → tupLe b c = true →
    a.take n = c.take n → b.take n = a.take n := by
  induction n with
  | zero => intro a b c _ _ _ _ _; simp
  | succ m ih =>
    intro a b c hab hbc h1 h2 htake
    cases a with
    | nil =>
      cases b with
      | nil => simp
      | cons v b2 => simp at hab
    | cons u a2 =>
      cases b with
      | nil => simp at hab
      | cons v b2 =>
        cases c with
        | nil => simp at hbc
        | cons w c2 =>
          have htk : u = w ∧ a2.take m = c2.take m := by
            simpa using htake
          by_cases huv : u = v
          · subst huv
            have h1a : tupLe a2 b2 = true := by
              unfold tupLe at h1 ⊢
              rw [tupLt_cons_same] at h1
              exact h1
            have h2a : tupLe b2 c2 = true := by
              unfold tupLe at h2 ⊢
              rw [htk.1] at h2
              rw [tupLt_cons_same] at h2
              exact h2
            have := ih (by simpa using hab) (by simpa using hbc) h1a h2a htk.2
            simpa using this
          · exfalso
            have hvu : dvLt v u = false := by
              unfold tupLe at h1
              have h3 : tupLt (v :: b2) (u :: a2)
                  = (if v = u then tupLt b2 a2 else dvLt v u) := rfl
              rw [h3, if_neg (fun he => huv he.symm)] at h1
              simpa using h1
            have huv2 : dvLt u v = false := by
              unfold tupLe at h2
              have h3 : tupLt (w :: c2) (v :: b2)
                  = (if w = v then tupLt c2 b2 else dvLt w v) := rfl
              have hwv : ¬ w = v := by rw [← htk.1]; exact huv
              rw [h3, if_neg hwv] at h2
              rw [htk.1]
              simpa using h2
            rcases dvLt_total huv with hlt | hlt
            · rw [huv2] at hlt; exact absurd hlt (by simp)
            · rw [hvu] at hlt; exact absurd hlt (by simp)

theorem groupsAux_decomp (n : Nat) (g : Tuple) :
    ∀ (l : List Tuple) (acc : List Tuple),
      groupsAux n l g acc
        = (acc.reverse ++ l.takeWhile (fun t => decide (t.take n = g)))
          :: groupsFn n (l.dropWhile (fun t => decide (t.take n = g))) := by
  intro l
  induction l with
  | nil => intro acc; simp [groupsAux, groupsFn]
  | cons t ts ih =>
    intro acc
    by_cases h : t.take n = g
    · rw [show groupsAux n (t :: ts) g acc = groupsAux n ts g (t :: acc) by
        simp [groupsAux, h]]
      rw [ih (t :: acc)]
      rw [List.takeWhile_cons_of_pos (by simp [h]),
        List.dropWhile_cons_of_pos (by simp [h])]
      simp
    · rw [show groupsAux n (t :: ts) g acc
          = acc.reverse :: groupsAux n ts (t.take n) [t] by
        simp [groupsAux, h]]
      rw [List.takeWhile_cons_of_neg (by simp [h]),
        List.dropWhile_cons_of_neg (by simp [h])]
      rw [show groupsFn n (t :: ts) = groupsAux n ts (t.take n) [t] from rfl]
      simp

theorem groupsFn_cons (n : Nat) (t : Tuple) (ts : List Tuple) :
    groupsFn n (t :: ts)
      = (t :: ts.takeWhile (fun x => decide (x.take n = t.take n)))
        :: groupsFn n (ts.dropWhile (fun x => decide (x.take n = t.take n))) := by
  rw [show groupsFn n (t :: ts) = groupsAux n ts (t.take n) [t] from rfl]
  rw [groupsAux_decomp]
  rfl

theorem dropWhile_group_ne (n L : Nat) {t : Tuple} :
    ∀ {ts : List Tuple},
      List.Pairwise (fun a b => tupLt a b = true) (t :: ts) →
      (∀ x ∈ t :: ts, x.length = L) →
      ∀ x ∈ ts.dropWhile (fun r => decide (r.take n = t.take n)),
        ¬ (x.take n = t.take n) := by
  intro ts
  induction ts with
  | nil => intro _ _ x hx; simp at hx
  | cons u us ih =>
    intro hs hL x hx
    by_cases hu : u.take n = t.take n
    · rw [List.dropWhile_cons_of_pos (by simp [hu])] at hx
      have hs2 : List.Pairwise (fun a b => tupLt a b = true) (t :: us) := by
        have hsub : (t :: us).Sublist (t :: u :: us) := by
          apply List.Sublist.cons₂
          exact List.sublist_cons_self _ _
        exact List.Pairwise.sublist hsub hs
      have hL2 : ∀ y ∈ t :: us, y.length = L := by
        intro y hy
        rcases List.mem_cons.mp hy with h | h
        · exact hL y (by rw [h]; exact List.mem_cons_self _ _)
        · exact hL y (List.mem_cons_of_mem _ (List.mem_cons_of_mem _ h))
      exact ih hs2 hL2 x hx
    · rw [List.dropWhile_cons_of_neg (by simp [hu])] at hx
      rcases List.mem_cons.mp hx with h | h
      · rw [h]; exact hu
      · intro hxt
        obtain ⟨hhead, htail⟩ := List.pairwise_cons.mp hs
        obtain ⟨hhead2, _⟩ := List.pairwise_cons.mp htail
        have h1 : tupLe t u = true := tupLe_of_lt (hhead u (List.mem_cons_self _ _))
        have h2 : tupLe u x = true := tupLe_of_lt (hhead2 x h)
        have hLt : t.length = u.length := by
          rw [hL t (List.mem_cons_self _ _),
            hL u (List.mem_cons_of_mem _ (List.mem_cons_self _ _))]
        have hLu : u.length = x.length := by
          rw [hL u (List.mem_cons_of_mem _ (List.mem_cons_self _ _)),
            hL x (List.mem_cons_of_mem _ (List.mem_cons_of_mem _ h))]
        have := take_eq_of_between n hLt hLu h1 h2 hxt.symm
        exact hu this

theorem takeWhile_group_filter (n L : Nat) {t : Tuple} {ts : List Tuple}
    (hs : List.Pairwise (fun a b => tupLt a b = true) (t :: ts))
    (hL : ∀ x ∈ t :: ts, x.length = L) :
    t :: ts.takeWhile (fun r => decide (r.take n = t.take n))
      = (t :: ts).filter (fun r => decide (r.take n = t.take n)) := by
  rw [List.filter_cons_of_pos (by simp)]
  congr 1
  have hsplit := List.takeWhile_append_dropWhile
    (fun r => decide (r.take n = t.take n)) ts
  have h1 : List.filter (fun r => decide (r.take n = t.take n))
      (ts.takeWhile (fun r => decide (r.take n = t.take n)))
      = ts.takeWhile (fun r => decide (r.take n = t.take n)) :=
    List.filter_eq_self.mpr (fun a ha =>
      List.mem_takeWhile_imp (p := fun r => decide (List.take n r = List.take n t)) ha)
  have h2 : List.filter (fun r => decide (r.take n = t.take n))
      (ts.dropWhile (fun r => decide (r.take n = t.take n))) = [] := by
    apply List.filter_eq_nil_iff.mpr
    intro a ha
    simp only [decide_eq_true_eq]
    exact dropWhile_group_ne n L hs hL a ha
  calc ts.takeWhile (fun r => decide (r.take n = t.take n))
      = List.filter (fun r => decide (r.take n = t.take n))
          (ts.takeWhile (fun r => decide (r.take n = t.take n)))
        ++ List.filter (fun r => decide (r.take n = t.take n))
          (ts.dropWhile (fun r => decide (r.take n = t.take n))) := by
        rw [h1, h2, List.append_nil]
    _ = List.filter (fun r => decide (r.take n = t.take n)) ts := by
        rw [← List.filter_append, hsplit]

theorem groups_filter_aux (n L : Nat) :
    ∀ (m : Nat) (l : List Tuple), l.length = m →
      List.Pairwise (fun a b => tupLt a b = true) l →
      (∀ x ∈ l, x.length = L) →
      ∀ grp ∈ groupsFn n l, grp ≠ [] ∧
        (∀ x ∈ grp, x.take n = (grp.headD []).take n) ∧
        grp = l.filter (fun r => decide (List.take n r = List.take n (grp.headD []))) := by
  intro m
  induction m using Nat.strong_induction_on with
  | _ m ih =>
    intro l hlen hs hL grp hgrp
    cases l with
    | nil =>
      rw [show groupsFn n [] = [] from rfl] at hgrp
      exact absurd hgrp (List.not_mem_nil _)
    | cons t ts =>
      rw [groupsFn_cons] at hgrp
      rcases List.mem_cons.mp hgrp with hfirst | hrest
      · subst hfirst
        have hhead : ((t :: ts.takeWhile
            (fun x => decide (List.take n x = List.take n t))).headD []) = t := rfl
        refine ⟨List.cons_ne_nil _ _, ?_, ?_⟩
        · intro x hx
          rw [hhead]
          rcases List.mem_cons.mp hx with h | h
          · rw [h]
          · exact of_decide_eq_true (List.mem_takeWhile_imp
              (p := fun x => decide (List.take n x = List.take n t)) h)
        · rw [hhead]
          exact takeWhile_group_filter n L hs hL
      · have hsub : (ts.dropWhile
            (fun x => decide (List.take n x = List.take n t))).Sublist ts :=
          List.dropWhile_sublist _
        have hs_ts : List.Pairwise (fun a b => tupLt a b = true) ts :=
          (List.pairwise_cons.mp hs).2
        have hs_d := List.Pairwise.sublist hsub hs_ts
        have hL_d : ∀ x ∈ ts.dropWhile
            (fun x => decide (List.take n x = List.take n t)), x.length = L :=
          fun x hx => hL x (List.mem_cons_of_mem _ (hsub.subset hx))
        have hlt : (ts.dropWhile
            (fun x => decide (List.take n x = List.take n t))).length < m := by
          have h1 := hsub.length_le
          have h2 : ts.length + 1 = m := by simpa using hlen
          omega
        obtain ⟨hne, hmem, heq⟩ := ih _ hlt _ rfl hs_d hL_d grp hrest
        refine ⟨hne, hmem, ?_⟩
        have hhd : grp.headD [] ∈ grp := by
          cases grp with
          | nil => exact absurd rfl hne
          | cons a g2 => exact List.mem_cons_self _ _
        have hhd_d : grp.headD [] ∈ ts.dropWhile
            (fun x => decide (List.take n x = List.take n t)) := by
          have h3 := hhd
          nth_rewrite 1 [heq] at h3
          exact List.mem_of_mem_filter h3
        have hgne : ¬ (List.take n (grp.headD []) = List.take n t) :=
          dropWhile_group_ne n L hs hL _ hhd_d
        have hQ : List.filter
            (fun r => decide (List.take n r = List.take n (grp.headD []))) (t :: ts)
            = List.filter
              (fun r => decide (List.take n r = List.take n (grp.headD [])))
              (ts.dropWhile (fun x => decide (List.take n x = List.take n t))) := by
          have hsplit := List.takeWhile_append_dropWhile
            (fun x => decide (List.take n x = List.take n t)) ts
          rw [List.filter_cons_of_neg (by
            simp only [decide_eq_true_eq]
            exact fun he => hgne he.symm)]
          conv_lhs => rw [← hsplit]
          rw [List.filter_append]
          have hz : List.filter
              (fun r => decide (List.take n r = List.take n (grp.headD [])))
              (ts.takeWhile (fun x => decide (List.take n x = List.take n t))) = [] := by
            apply List.filter_eq_nil_iff.mpr
            intro a ha
            have hat : List.take n a = List.take n t :=
              of_decide_eq_true (List.mem_takeWhile_imp
                (p := fun x => decide (List.take n x = List.take n t)) ha)
            simp only [decide_eq_true_eq]
            intro hcon
            exact hgne (by rw [← hcon]; exact hat)
          rw [hz, List.nil_append]
        rw [hQ]
        exact heq

theorem groups_filter (n L : Nat) (l : List Tuple)
    (hs : List.Pairwise (fun a b => tupLt a b = true) l)
    (hL : ∀ x ∈ l, x.length = L) :
    ∀ grp ∈ groupsFn n l, grp ≠ [] ∧
      (∀ x ∈ grp, x.take n = (grp.headD []).take n) ∧
      grp = l.filter (fun r => decide (List.take n r = List.take n (grp.headD []))) :=
  groups_filter_aux n L l.length l rfl hs hL

theorem groupsFn_join_aux (n : Nat) : ∀ (m : Nat) (l : List Tuple), l.length = m →
    (groupsFn n l).flatten = l := by
  intro m
  induction m using Nat.strong_induction_on with
  | _ m ih =>
    intro l hlen
    cases l with
    | nil => rfl
    | cons t ts =>
      rw [groupsFn_cons, List.flatten_cons]
      have hsub : (ts.dropWhile
          (fun x => decide (List.take n x = List.take n t))).Sublist ts :=
        List.dropWhile_sublist _
      have hlt : (ts.dropWhile
          (fun x => decide (List.take n x = List.take n t))).length < m := by
        have h1 := hsub.length_le
        have h2 : ts.length + 1 = m := by simpa using hlen
        omega
      rw [ih _ hlt _ rfl, List.cons_append]
      congr 1
      exact List.takeWhile_append_dropWhile _ _

theorem groupsFn_flat (n : Nat) (l : List Tuple) : (groupsFn n l).flatten = l :=
  groupsFn_join_aux n l.length l rfl

theorem groups_keys_pairwise_aux (n L : Nat) :
    ∀ (m : Nat) (l : List Tuple), l.length = m →
      List.Pairwise (fun a b => tupLt a b = true) l →
      (∀ x ∈ l, x.length = L) →
      List.Pairwise (fun g1 g2 =>
        List.take n (g1.headD []) ≠ List.take n (g2.headD [])) (groupsFn n l) := by
  intro m
  induction m using Nat.strong_induction_on with
  | _ m ih =>
    intro l hlen hs hL
    cases l with
    | nil => exact List.Pairwise.nil
    | cons t ts =>
      rw [groupsFn_cons]
      have hsub : (ts.dropWhile
          (fun x => decide (List.take n x = List.take n t))).Sublist ts :=
        List.dropWhile_sublist _
      have hs_ts : List.Pairwise (fun a b => tupLt a b = true) ts :=
        (List.pairwise_cons.mp hs).2
      have hs_d := List.Pairwise.sublist hsub hs_ts
      have hL_d : ∀ x ∈ ts.dropWhile
          (fun x => decide (List.take n x = List.take n t)), x.length = L :=
        fun x hx => hL x (List.mem_cons_of_mem _ (hsub.subset hx))
      have hlt : (ts.dropWhile
          (fun x => decide (List.take n x = List.take n t))).length < m := by
        have h1 := hsub.length_le
        have h2 : ts.length + 1 = m := by simpa using hlen
        omega
      apply List.Pairwise.cons
      · intro g2 hg2
        obtain ⟨hne, hmem, heq⟩ := groups_filter_aux n L _ _ rfl hs_d hL_d g2 hg2
        have hhd : g2.headD [] ∈ g2 := by
          cases g2 with
          | nil => exact absurd rfl hne
          | cons a g3 => exact List.mem_cons_self _ _
        have hhd_d : g2.headD [] ∈ ts.dropWhile
            (fun x => decide (List.take n x = List.take n t)) := by
          have h3 := hhd
          nth_rewrite 1 [heq] at h3
          exact List.mem_of_mem_filter h3
        have hgne : ¬ (List.take n (g2.headD []) = List.take n t) :=
          dropWhile_group_ne n L hs hL _ hhd_d
        show List.take n ((t :: _).headD []) ≠ List.take n (g2.headD [])
        exact fun he => hgne (by rw [← he]; rfl)
      · exact ih _ hlt _ rfl hs_d hL_d

theorem groups_keys_pairwise (n L : Nat) (l : List Tuple)
    (hs : List.Pairwise (fun a b => tupLt a b = true) l)
    (hL : ∀ x ∈ l, x.length = L) :
    List.Pairwise (fun g1 g2 =>
      List.take n (g1.headD []) ≠ List.take n (g2.headD [])) (groupsFn n l) :=
  groups_keys_pairwise_aux n L l.length l rfl hs hL

theorem length_nonAggVals {aggrs : List (Option NormalAggr)} {t : Tuple}
    (hlen : t.length = aggrs.length) :
    (nonAggVals aggrs t).length = nKeys aggrs := by
  rw [nonAggVals_eq_map hlen, List.length_map, length_noneIdxsFrom]

theorem length_reorderTuple {aggrs : List (Option NormalAggr)} {t : Tuple}
    (hlen : t.length = aggrs.length) :
    (reorderTuple aggrs t).length = aggrs.length := by
  rw [reorderTuple_eq_map hlen, List.length_map, length_reorderIdx]

theorem nKeys_le (aggrs : List (Option NormalAggr)) : nKeys aggrs ≤ aggrs.length :=
  List.countP_le_length _

theorem length_storedKey {aggrs : List (Option NormalAggr)} {p : Nat × Tuple}
    (hlen : p.2.length = aggrs.length) :
    (storedKey aggrs p).length = aggrs.length + 1 := by
  unfold storedKey
  rw [List.length_append, length_reorderTuple hlen]
  rfl

theorem take_storedKey_full {aggrs : List (Option NormalAggr)} {p : Nat × Tuple}
    (hlen : p.2.length = aggrs.length) :
    (storedKey aggrs p).take aggrs.length = reorderTuple aggrs p.2 := by
  unfold storedKey
  rw [show aggrs.length = (reorderTuple aggrs p.2).length from
    (length_reorderTuple hlen).symm]
  exact List.take_left _ _

theorem take_reorderTuple_keys {aggrs : List (Option NormalAggr)} {t : Tuple}
    (hlen : t.length = aggrs.length) :
    (reorderTuple aggrs t).take (nKeys aggrs) = nonAggVals aggrs t := by
  unfold reorderTuple
  rw [show nKeys aggrs = (nonAggVals aggrs t).length from (length_nonAggVals hlen).symm]
  exact List.take_left _ _

theorem take_storedKey_keys {aggrs : List (Option NormalAggr)} {p : Nat × Tuple}
    (hlen : p.2.length = aggrs.length) :
    (storedKey aggrs p).take (nKeys aggrs) = nonAggVals aggrs p.2 := by
  unfold storedKey
  rw [List.take_append_of_le_length (by
    rw [length_reorderTuple hlen]; exact nKeys_le aggrs)]
  exact take_reorderTuple_keys hlen

theorem reorderTuple_getD_invert {aggrs : List (Option NormalAggr)} {t : Tuple}
    (hlen : t.length = aggrs.length) {j : Nat} (hj : j < aggrs.length) :
    (reorderTuple aggrs t).getD ((invertIdx aggrs).getD j 0) DataValue.Guard
      = t.getD j DataValue.Guard := by
  obtain ⟨hb, hv⟩ := invertIdx_spec aggrs hj
  rw [reorderTuple_eq_map hlen]
  rw [getD_map_lt (by rw [length_reorderIdx]; exact hb) _ _ 0]
  rw [hv]

theorem reorderTuple_inj {aggrs : List (Option NormalAggr)} {t1 t2 : Tuple}
    (h1 : t1.length = aggrs.length) (h2 : t2.length = aggrs.length)
    (heq : reorderTuple aggrs t1 = reorderTuple aggrs t2) : t1 = t2 := by
  apply List.ext_getElem (by rw [h1, h2])
  intro i hi1 hi2
  have hia : i < aggrs.length := by rw [← h1]; exact hi1
  have e1 : t1.getD i DataValue.Guard = t2.getD i DataValue.Guard := by
    rw [← reorderTuple_getD_invert h1 hia, ← reorderTuple_getD_invert h2 hia, heq]
  rw [List.getD_eq_getElem _ _ hi1, List.getD_eq_getElem _ _ hi2] at e1
  exact e1

theorem cellsM_isSome {f : Nat → Option DataValue} :
    ∀ {js : List Nat}, (∀ j ∈ js, (f j).isSome) → (cellsM f js).isSome := by
  intro js
  induction js with
  | nil => intro _; rfl
  | cons j js ih =>
    intro h
    have hj := h j (List.mem_cons_self _ _)
    have hjs := ih (fun x hx => h x (List.mem_cons_of_mem _ hx))
    show (cellsM f (j :: js)).isSome
    unfold cellsM
    obtain ⟨v, hv⟩ := Option.isSome_iff_exists.mp hj
    obtain ⟨vs, hvs⟩ := Option.isSome_iff_exists.mp hjs
    rw [hv, hvs]
    rfl

theorem cellsM_congr {f g : Nat → Option DataValue} :
    ∀ {js : List Nat}, (∀ j ∈ js, f j = g j) → cellsM f js = cellsM g js := by
  intro js
  induction js with
  | nil => intro _; rfl
  | cons j js ih =>
    intro h
    unfold cellsM
    rw [h j (List.mem_cons_self _ _), ih (fun x hx => h x (List.mem_cons_of_mem _ hx))]

theorem cellsM_length {f : Nat → Option DataValue} :
    ∀ {js : List Nat} {r : List DataValue}, cellsM f js = some r →
      r.length = js.length := by
  intro js
  induction js with
  | nil => intro r h; cases r with
    | nil => rfl
    | cons v vs => exact absurd (Option.some.inj h) (by simp)
  | cons j js ih =>
    intro r h
    unfold cellsM at h
    cases hj : f j with
    | none => rw [hj] at h; exact absurd h (by simp)
    | some v =>
      cases hjs : cellsM f js with
      | none => rw [hj, hjs] at h; exact absurd h (by simp)
      | some vs =>
        rw [hj, hjs] at h
        rw [← Option.some.inj h]
        simp [ih hjs]

theorem cellsM_getD {f : Nat → Option DataValue} :
    ∀ {js : List Nat} {r : List DataValue}, cellsM f js = some r →
      ∀ i, i < js.length →
        some (r.getD i DataValue.Guard) = f (js.getD i 0) := by
  intro js
  induction js with
  | nil => intro r _ i hi; exact absurd hi (by simp)
  | cons j js ih =>
    intro r h i hi
    unfold cellsM at h
    cases hj : f j with
    | none => rw [hj] at h; exact absurd h (by simp)
    | some v =>
      cases hjs : cellsM f js with
      | none => rw [hj, hjs] at h; exact absurd h (by simp)
      | some vs =>
        rw [hj, hjs] at h
        rw [← Option.some.inj h]
        cases i with
        | zero => simpa using hj.symm
        | succ i2 =>
          simp only [List.getD_cons_succ]
          exact ih hjs i2 (by simpa using hi)

theorem mapGet_insertKeys_nil (r : Tuple) (ks : List Tuple) :
    mapGet r (insertKeys ks []) = if r ∈ ks then some [] else none := by
  by_cases hr : r ∈ ks
  · rw [if_pos hr]
    exact (mapGet_eq_some_iff (sorted_insertKeys ks List.Pairwise.nil)).mpr
      ((mem_insertKeys ks List.Pairwise.nil).mpr (Or.inr ⟨rfl, hr⟩))
  · rw [if_neg hr]
    cases hm : mapGet r (insertKeys ks []) with
    | none => rfl
    | some v =>
      have := (mapGet_eq_some_iff (sorted_insertKeys ks List.Pairwise.nil)).mp hm
      have h2 := (mem_insertKeys ks List.Pairwise.nil).mp this
      rcases h2 with ⟨habs, _⟩ | ⟨_, hk⟩
      · exact absurd habs (List.not_mem_nil _)
      · exact absurd hk hr

theorem enum_snd_mem {α : Type} {l : List α} {p : Nat × α} (hp : p ∈ l.enum) :
    p.2 ∈ l := by
  have h := List.mem_enum_iff_getElem?.mp hp
  obtain ⟨hb, hv⟩ := List.getElem?_eq_some.mp h
  rw [← hv]
  exact List.getElem_mem _

theorem length_mem_scanRows_build {aggrs : List (Option NormalAggr)}
    {inputs : List Tuple} (hlen : ∀ t ∈ inputs, t.length = aggrs.length) {r : Tuple}
    (hr : r ∈ scanRows (buildNormalStore aggrs inputs)) :
    r.length = aggrs.length + 1 := by
  have h := mem_scanRows_build.mp hr
  obtain ⟨p, hp, hpe⟩ := List.mem_map.mp h
  rw [← hpe]
  exact length_storedKey (hlen p.2 (enum_snd_mem hp))

theorem map_snd_filter_enum (aggrs : List (Option NormalAggr)) (g : Tuple) :
    ∀ (L : List (Nat × Tuple)),
      (L.filter (fun q => decide (nonAggVals aggrs q.2 = g))).map
          (fun q => reorderTuple aggrs q.2)
        = ((L.map Prod.snd).filter (fun t => decide (nonAggVals aggrs t = g))).map
            (reorderTuple aggrs) := by
  intro L
  induction L with
  | nil => rfl
  | cons q L ih =>
    by_cases hq : nonAggVals aggrs q.2 = g
    · rw [List.filter_cons_of_pos (by simp [hq]), List.map_cons, List.map_cons,
        List.filter_cons_of_pos (by simp [hq]), List.map_cons, ih]
    · rw [List.filter_cons_of_neg (by simp [hq]), List.map_cons,
        List.filter_cons_of_neg (by simp [hq]), ih]

theorem group_canon (aggrs : List (Option NormalAggr)) (inputs : List Tuple)
    (hlen : ∀ t ∈ inputs, t.length = aggrs.length)
    {grp : List Tuple}
    (hgrp : grp ∈ groupsFn (nKeys aggrs) (scanRows (buildNormalStore aggrs inputs))) :
    grp.map (List.take aggrs.length)
      = (canonMembers aggrs inputs
          (List.take (nKeys aggrs) (grp.headD []))).map (reorderTuple aggrs) := by
  haveI hanti : IsAntisymm Tuple (fun a b => tupLe a b = true) :=
    ⟨fun a b h1 h2 => tupLe_antisymm h1 h2⟩
  haveI hT : IsTotal Tuple
      (fun a b => tupLe (reorderTuple aggrs a) (reorderTuple aggrs b) = true) :=
    ⟨fun a b => tupLe_total _ _⟩
  haveI hTr : IsTrans Tuple
      (fun a b => tupLe (reorderTuple aggrs a) (reorderTuple aggrs b) = true) :=
    ⟨fun a b c h1 h2 => tupLe_trans h1 h2⟩
  have hsorted := sorted_scanRows_build aggrs inputs
  have hLrows : ∀ x ∈ scanRows (buildNormalStore aggrs inputs),
      x.length = aggrs.length + 1 :=
    fun x hx => length_mem_scanRows_build hlen hx
  obtain ⟨hne, hmem, heq⟩ :=
    groups_filter (nKeys aggrs) (aggrs.length + 1)
      (scanRows (buildNormalStore aggrs inputs)) hsorted hLrows grp hgrp
  set g := List.take (nKeys aggrs) (grp.headD []) with hgdef
  have hchain : ((storedKeys aggrs inputs).filter
        (fun r => decide (List.take (nKeys aggrs) r = g))).map
        (List.take aggrs.length)
      = (membersOf aggrs inputs g).map (reorderTuple aggrs) := by
    unfold storedKeys
    rw [List.filter_map, List.map_map]
    have e1a : inputs.enum.filter
          ((fun r => decide (List.take (nKeys aggrs) r = g)) ∘ storedKey aggrs)
        = inputs.enum.filter (fun q => decide (nonAggVals aggrs q.2 = g)) := by
      apply List.filter_congr
      intro p hp
      simp only [Function.comp]
      simp [take_storedKey_keys (hlen p.2 (enum_snd_mem hp))]
    rw [e1a]
    have e1b : (inputs.enum.filter
          (fun q => decide (nonAggVals aggrs q.2 = g))).map
          (List.take aggrs.length ∘ storedKey aggrs)
        = (inputs.enum.filter
            (fun q => decide (nonAggVals aggrs q.2 = g))).map
            (fun q => reorderTuple aggrs q.2) := by
      apply List.map_congr_left
      intro p hp
      simp only [Function.comp]
      exact take_storedKey_full (hlen p.2 (enum_snd_mem (List.mem_of_mem_filter hp)))
    rw [e1b, map_snd_filter_enum aggrs g inputs.enum, List.enum_map_snd]
    rfl
  have hperm1 : (grp.map (List.take aggrs.length)).Perm
      ((membersOf aggrs inputs g).map (reorderTuple aggrs)) := by
    rw [heq, ← hchain]
    exact (List.Perm.filter _ (scanRows_build_perm aggrs inputs)).map _
  have hperm2 : ((canonMembers aggrs inputs g).map (reorderTuple aggrs)).Perm
      ((membersOf aggrs inputs g).map (reorderTuple aggrs)) :=
    (List.perm_insertionSort _ _).map _
  have hsorted_grp : List.Pairwise (fun a b => tupLt a b = true) grp := by
    rw [heq]
    exact List.Pairwise.filter _ hsorted
  have hlen_grp : ∀ x ∈ grp, x.length = aggrs.length + 1 := by
    intro x hx
    have hxr : x ∈ scanRows (buildNormalStore aggrs inputs) := by
      rw [heq] at hx
      exact List.mem_of_mem_filter hx
    exact hLrows x hxr
  have hs1 : List.Pairwise (fun a b => tupLe a b = true)
      (grp.map (List.take aggrs.length)) := by
    apply List.pairwise_map.mpr
    apply List.Pairwise.imp_of_mem ?imp hsorted_grp
    case imp =>
      intro a b ha hb hab
      have hla := hlen_grp a ha
      have hlb := hlen_grp b hb
      have hlent : (a.take aggrs.length).length = (b.take aggrs.length).length := by
        rw [List.length_take, List.length_take, hla, hlb]
      apply tupLe_of_append_lt hlent
        (x := a.drop aggrs.length) (y := b.drop aggrs.length)
      rw [List.take_append_drop, List.take_append_drop]
      exact hab
  have hs2 : List.Pairwise (fun a b => tupLe a b = true)
      ((canonMembers aggrs inputs g).map (reorderTuple aggrs)) := by
    apply List.Pairwise.map (reorderTuple aggrs) (fun a b h => h)
    exact List.sorted_insertionSort _ _
  exact List.eq_of_perm_of_sorted (hperm1.trans hperm2.symm) hs1 hs2

theorem resultCell_none {aggrs : List (Option NormalAggr)} {j : Nat}
    (h : aggrs.getD j none = none) (inv : List Nat) (first : Tuple)
    (grp : List Tuple) :
    resultCell aggrs inv first grp j
      = some (first.getD (inv.getD j 0) DataValue.Guard) := by
  unfold resultCell
  rw [h]

theorem resultCell_some {aggrs : List (Option NormalAggr)} {j : Nat}
    {ag : NormalAggr} (h : aggrs.getD j none = some ag) (inv : List Nat)
    (first : Tuple) (grp : List Tuple) :
    resultCell aggrs inv first grp j
      = ag.finalize (grp.map (fun t => t.getD (inv.getD j 0) DataValue.Guard)) := by
  unfold resultCell
  rw [h]

theorem expectedCell_none {aggrs : List (Option NormalAggr)} {j : Nat}
    (h : aggrs.getD j none = none) (ms : List Tuple) :
    expectedCell aggrs ms j = some ((ms.headD []).getD j DataValue.Guard) := by
  unfold expectedCell
  rw [h]

theorem expectedCell_some {aggrs : List (Option NormalAggr)} {j : Nat}
    {ag : NormalAggr} (h : aggrs.getD j none = some ag) (ms : List Tuple) :
    expectedCell aggrs ms j
      = ag.finalize (ms.map (fun t => t.getD j DataValue.Guard)) := by
  unfold expectedCell
  rw [h]

theorem mem_canonMembers {aggrs : List (Option NormalAggr)} {inputs : List Tuple}
    {g m : Tuple} (hm : m ∈ canonMembers aggrs inputs g) :
    m ∈ inputs ∧ nonAggVals aggrs m = g := by
  have h1 : m ∈ inputs.filter (fun t => decide (nonAggVals aggrs t = g)) :=
    (List.perm_insertionSort _ _).subset hm
  refine ⟨List.mem_of_mem_filter h1, ?_⟩
  exact of_decide_eq_true
    (List.of_mem_filter (p := fun t => decide (nonAggVals aggrs t = g)) h1)

theorem computeResult_eq_expected (aggrs : List (Option NormalAggr))
    (inputs : List Tuple) (hlen : ∀ t ∈ inputs, t.length = aggrs.length)
    {first : Tuple} {others : List Tuple}
    (hgrp : (first :: others) ∈ groupsFn (nKeys aggrs)
      (scanRows (buildNormalStore aggrs inputs))) :
    computeResult aggrs (invertIdx aggrs) first (first :: others)
      = expectedRow aggrs
          (canonMembers aggrs inputs (List.take (nKeys aggrs) first)) := by
  have hg := group_canon aggrs inputs hlen hgrp
  rw [show (((first :: others).headD []) : Tuple) = first from rfl] at hg
  set ms := canonMembers aggrs inputs (List.take (nKeys aggrs) first) with hms
  have hmem_ms : ∀ m ∈ ms, m.length = aggrs.length := by
    intro m hm
    exact hlen m (mem_canonMembers hm).1
  have hsub_rows : ∀ x ∈ (first :: others),
      x ∈ scanRows (buildNormalStore aggrs inputs) := by
    intro x hx
    have h2 : x ∈ (groupsFn (nKeys aggrs)
        (scanRows (buildNormalStore aggrs inputs))).flatten :=
      List.mem_flatten.mpr ⟨_, hgrp, hx⟩
    rw [groupsFn_flat] at h2
    exact h2
  have hlen_grp : ∀ x ∈ (first :: others), x.length = aggrs.length + 1 :=
    fun x hx => length_mem_scanRows_build hlen (hsub_rows x hx)
  obtain ⟨m0, ms2, hms_cons⟩ : ∃ m0 ms2, ms = m0 :: ms2 := by
    cases hcm : ms with
    | nil =>
      exfalso
      rw [hcm] at hg
      simp at hg
    | cons a b => exact ⟨a, b, rfl⟩
  have hm0 : m0 ∈ ms := by rw [hms_cons]; exact List.mem_cons_self _ _
  have hhead : first.take aggrs.length = reorderTuple aggrs m0 := by
    have h3 := hg
    rw [hms_cons] at h3
    have h4 := congrArg (fun l => l.headD ([] : Tuple)) h3
    simpa using h4
  unfold computeResult expectedRow
  apply cellsM_congr
  intro j hj
  have hjlt : j < aggrs.length := List.mem_range.mp hj
  obtain ⟨hinvlt, hinv⟩ := invertIdx_spec aggrs hjlt
  cases haj : aggrs.getD j none with
  | none =>
    rw [resultCell_none haj, expectedCell_none haj]
    have e1 : first.getD ((invertIdx aggrs).getD j 0) DataValue.Guard
        = (first.take aggrs.length).getD ((invertIdx aggrs).getD j 0)
            DataValue.Guard :=
      (getD_take hinvlt _).symm
    rw [e1, hhead, reorderTuple_getD_invert (hmem_ms m0 hm0) hjlt, hms_cons]
    rfl
  | some ag =>
    rw [resultCell_some haj, expectedCell_some haj]
    congr 1
    calc (first :: others).map
          (fun t => t.getD ((invertIdx aggrs).getD j 0) DataValue.Guard)
        = ((first :: others).map (List.take aggrs.length)).map
            (fun t => t.getD ((invertIdx aggrs).getD j 0) DataValue.Guard) := by
          rw [List.map_map]
          apply List.map_congr_left
          intro a ha
          simp only [Function.comp]
          exact (getD_take hinvlt _).symm
      _ = (ms.map (reorderTuple aggrs)).map
            (fun t => t.getD ((invertIdx aggrs).getD j 0) DataValue.Guard) := by
          rw [hg]
      _ = ms.map (fun m => m.getD j DataValue.Guard) := by
          rw [List.map_map]
          apply List.map_congr_left
          intro m hm
          simp only [Function.comp]
          exact reorderTuple_getD_invert (hmem_ms m hm) hjlt

theorem processGroups_none_run (aggrs : List (Option NormalAggr)) (inv : List Nat) :
    ∀ (groups : List (List Tuple)) (store : List Snapshot),
      (∀ grp ∈ groups, grp ≠ []) →
      (∀ grp ∈ groups, (computeResult aggrs inv (grp.headD []) grp).isSome) →
      ∃ st, processGroups aggrs inv false groups none store
          = some (false, st, none) ∧
        st.getD 0 [] = insertKeys (groupResultsOf aggrs inv groups)
          (store.getD 0 []) := by
  intro groups
  induction groups with
  | nil => intro store _ _; exact ⟨store, rfl, rfl⟩
  | cons grp rest ih =>
    intro store hne hsome
    obtain ⟨first, others, hcons⟩ : ∃ f o, grp = f :: o := by
      cases grp with
      | nil => exact absurd rfl (hne [] (List.mem_cons_self _ _))
      | cons a b => exact ⟨a, b, rfl⟩
    subst hcons
    obtain ⟨res, hres⟩ := Option.isSome_iff_exists.mp
      (hsome _ (List.mem_cons_self _ _))
    have hres2 : computeResult aggrs inv first (first :: others) = some res := hres
    have hstep : processGroups aggrs inv false ((first :: others) :: rest) none store
        = processGroups aggrs inv false rest none (put res 0 store) := by
      conv_lhs => rw [show processGroups aggrs inv false ((first :: others) :: rest)
        none store = if false = true ∧ others ≠ [] then none
        else
          match computeResult aggrs inv first (first :: others) with
          | none => none
          | some res => processGroups aggrs inv false rest none (put res 0 store)
        from rfl]
      rw [if_neg (by simp), hres2]
    obtain ⟨st, hst, hst0⟩ := ih (put res 0 store)
      (fun g hg => hne g (List.mem_cons_of_mem _ hg))
      (fun g hg => hsome g (List.mem_cons_of_mem _ hg))
    refine ⟨st, ?_, ?_⟩
    · rw [hstep]; exact hst
    · rw [hst0, put_getD]
      have hgr : groupResultsOf aggrs inv ((first :: others) :: rest)
          = res :: groupResultsOf aggrs inv rest := by
        unfold groupResultsOf
        rw [List.map_cons]
        congr 1
        show (computeResult aggrs inv first (first :: others)).getD [] = res
        rw [hres2]
        rfl
      rw [hgr]
      rfl

theorem groupResult_expected (aggrs : List (Option NormalAggr))
    (inputs : List Tuple) (hlen : ∀ t ∈ inputs, t.length = aggrs.length)
    {grp : List Tuple}
    (hgrp : grp ∈ groupsFn (nKeys aggrs) (scanRows (buildNormalStore aggrs inputs)))
    (hne : grp ≠ []) :
    computeResult aggrs (invertIdx aggrs) (grp.headD []) grp
      = expectedRow aggrs (canonMembers aggrs inputs
          (List.take (nKeys aggrs) (grp.headD []))) := by
  obtain ⟨f, o, hcons⟩ : ∃ f o, grp = f :: o := by
    cases grp with
    | nil => exact absurd rfl hne
    | cons a b => exact ⟨a, b, rfl⟩
  subst hcons
  exact computeResult_eq_expected aggrs inputs hlen hgrp

theorem expectedRow_isSome (aggrs : List (Option NormalAggr)) (ms : List Tuple)
    (hfin : ∀ ag, some ag ∈ aggrs → ∀ vs, (ag.finalize vs).isSome) :
    (expectedRow aggrs ms).isSome := by
  apply cellsM_isSome
  intro j hj
  have hjlt : j < aggrs.length := List.mem_range.mp hj
  cases haj : aggrs.getD j none with
  | none => rw [expectedCell_none haj]; rfl
  | some ag =>
    rw [expectedCell_some haj]
    apply hfin
    rw [List.getD_eq_getElem _ _ hjlt] at haj
    rw [← haj]
    exact List.getElem_mem _

theorem mem_noneIdxsFrom {aggrs : List (Option NormalAggr)} :
    ∀ {b j : Nat}, j ∈ noneIdxsFrom aggrs b →
      b ≤ j ∧ j - b < aggrs.length ∧ aggrs.getD (j - b) none = none := by
  induction aggrs with
  | nil => intro b j h; simp [noneIdxsFrom] at h
  | cons ma rest ih =>
    intro b j h
    cases ma with
    | none =>
      rcases List.mem_cons.mp h with h1 | h1
      · subst h1
        refine ⟨Nat.le_refl _, by simp, ?_⟩
        rw [Nat.sub_self]
        rfl
      · obtain ⟨hb, hlt, hd⟩ := ih h1
        refine ⟨by omega, by simp; omega, ?_⟩
        have he : j - b = (j - (b + 1)) + 1 := by omega
        rw [he]
        simpa using hd
    | some ag =>
      obtain ⟨hb, hlt, hd⟩ := ih h
      refine ⟨by omega, by simp; omega, ?_⟩
      have he : j - b = (j - (b + 1)) + 1 := by omega
      rw [he]
      simpa using hd

theorem mem_noneIdxs_zero {aggrs : List (Option NormalAggr)} {j : Nat}
    (h : j ∈ noneIdxsFrom aggrs 0) :
    j < aggrs.length ∧ aggrs.getD j none = none := by
  obtain ⟨_, hlt, hd⟩ := mem_noneIdxsFrom h
  rw [Nat.sub_zero] at hlt hd
  exact ⟨hlt, hd⟩

theorem expectedRow_key {aggrs : List (Option NormalAggr)} {inputs : List Tuple}
    (hlen : ∀ t ∈ inputs, t.length = aggrs.length) {g r : Tuple}
    (hne : canonMembers aggrs inputs g ≠ [])
    (hr : expectedRow aggrs (canonMembers aggrs inputs g) = some r) :
    nonAggVals aggrs r = g := by
  obtain ⟨m0, ms2, hcons⟩ : ∃ m0 ms2, canonMembers aggrs inputs g = m0 :: ms2 := by
    cases hcm : canonMembers aggrs inputs g with
    | nil => exact absurd hcm hne
    | cons a b => exact ⟨a, b, rfl⟩
  have hm0 : m0 ∈ canonMembers aggrs inputs g := by
    rw [hcons]; exact List.mem_cons_self _ _
  have hm0g : nonAggVals aggrs m0 = g := (mem_canonMembers hm0).2
  have hm0len : m0.length = aggrs.length := hlen m0 (mem_canonMembers hm0).1
  have hrlen : r.length = aggrs.length := by
    have h2 := cellsM_length hr
    simpa using h2
  have hcell : ∀ j, j < aggrs.length → aggrs.getD j none = none →
      r.getD j DataValue.Guard = m0.getD j DataValue.Guard := by
    intro j hj hnone
    have h1 := cellsM_getD hr j (by simpa using hj)
    have hrg : (List.range aggrs.length).getD j 0 = j := by
      rw [List.getD_eq_getElem _ _ (by simpa using hj)]
      exact List.getElem_range _ _
    rw [hrg, expectedCell_none hnone, hcons] at h1
    exact Option.some.inj h1
  rw [nonAggVals_eq_map hrlen, ← hm0g, nonAggVals_eq_map hm0len]
  apply List.map_congr_left
  intro p hp
  obtain ⟨hplt, hpd⟩ := mem_noneIdxs_zero hp
  exact hcell p hplt hpd

theorem canonMembers_ne_nil {aggrs : List (Option NormalAggr)}
    {inputs : List Tuple} {g t : Tuple} (ht : t ∈ inputs)
    (hg : nonAggVals aggrs t = g) : canonMembers aggrs inputs g ≠ [] := by
  intro hnil
  have hmem : t ∈ canonMembers aggrs inputs g := by
    apply (List.perm_insertionSort _ _).mem_iff.mpr
    exact List.mem_filter.mpr ⟨ht, by simp [hg]⟩
  rw [hnil] at hmem
  exact absurd hmem (List.not_mem_nil _)

theorem map_inj_on_eq {f : Tuple → Tuple} :
    ∀ {l1 l2 : List Tuple}, l1.map f = l2.map f →
      (∀ a ∈ l1, ∀ b ∈ l2, f a = f b → a = b) → l1 = l2 := by
  intro l1
  induction l1 with
  | nil =>
    intro l2 h _
    cases l2 with
    | nil => rfl
    | cons b l2 => simp at h
  | cons a l1 ih =>
    intro l2 h hinj
    cases l2 with
    | nil => simp at h
    | cons b l2 =>
      simp only [List.map_cons, List.cons.injEq] at h
      have hab : a = b :=
        hinj a (List.mem_cons_self _ _) b (List.mem_cons_self _ _) h.1
      rw [hab, ih h.2 (fun x hx y hy =>
        hinj x (List.mem_cons_of_mem _ hx) y (List.mem_cons_of_mem _ hy))]

theorem canonMembers_perm_eq (aggrs : List (Option NormalAggr))
    {inputs inputs2 : List Tuple} (hperm : inputs.Perm inputs2)
    (hlen : ∀ t ∈ inputs, t.length = aggrs.length) (g : Tuple) :
    canonMembers aggrs inputs g = canonMembers aggrs inputs2 g := by
  haveI hanti : IsAntisymm Tuple (fun a b => tupLe a b = true) :=
    ⟨fun a b h1 h2 => tupLe_antisymm h1 h2⟩
  haveI hT : IsTotal Tuple
      (fun a b => tupLe (reorderTuple aggrs a) (reorderTuple aggrs b) = true) :=
    ⟨fun a b => tupLe_total _ _⟩
  haveI hTr : IsTrans Tuple
      (fun a b => tupLe (reorderTuple aggrs a) (reorderTuple aggrs b) = true) :=
    ⟨fun a b c h1 h2 => tupLe_trans h1 h2⟩
  have hmp : (membersOf aggrs inputs g).Perm (membersOf aggrs inputs2 g) :=
    List.Perm.filter _ hperm
  have hcp : (canonMembers aggrs inputs g).Perm (canonMembers aggrs inputs2 g) :=
    ((List.perm_insertionSort _ _).trans hmp).trans
      (List.perm_insertionSort _ _).symm
  have hmap : (canonMembers aggrs inputs g).map (reorderTuple aggrs)
      = (canonMembers aggrs inputs2 g).map (reorderTuple aggrs) := by
    apply List.eq_of_perm_of_sorted (r := fun a b => tupLe a b = true) (hcp.map _)
    · exact List.Pairwise.map (reorderTuple aggrs) (fun a b h => h)
        (List.sorted_insertionSort _ _)
    · exact List.Pairwise.map (reorderTuple aggrs) (fun a b h => h)
        (List.sorted_insertionSort _ _)
  apply map_inj_on_eq hmap
  intro a ha b hb hab
  have hal : a.length = aggrs.length := hlen a (mem_canonMembers ha).1
  have hbl : b.length = aggrs.length :=
    hlen b (hperm.mem_iff.mpr (mem_canonMembers hb).1)
  exact reorderTuple_inj hal hbl hab

theorem group_key_mem_inputs (aggrs : List (Option NormalAggr)) (inputs : List Tuple)
    (hlen : ∀ t ∈ inputs, t.length = aggrs.length) {grp : List Tuple}
    (hgrp : grp ∈ groupsFn (nKeys aggrs) (scanRows (buildNormalStore aggrs inputs)))
    (hne : grp ≠ []) :
    ∃ t ∈ inputs, nonAggVals aggrs t = List.take (nKeys aggrs) (grp.headD []) := by
  have hhd : grp.headD [] ∈ grp := by
    cases grp with
    | nil => exact absurd rfl hne
    | cons a b => exact List.mem_cons_self _ _
  have hrow : grp.headD [] ∈ scanRows (buildNormalStore aggrs inputs) := by
    have h2 : grp.headD [] ∈ (groupsFn (nKeys aggrs)
        (scanRows (buildNormalStore aggrs inputs))).flatten :=
      List.mem_flatten.mpr ⟨_, hgrp, hhd⟩
    rw [groupsFn_flat] at h2
    exact h2
  obtain ⟨p, hp, hpe⟩ := List.mem_map.mp (mem_scanRows_build.mp hrow)
  refine ⟨p.2, enum_snd_mem hp, ?_⟩
  rw [← hpe, take_storedKey_keys (hlen p.2 (enum_snd_mem hp))]

theorem key_has_group (aggrs : List (Option NormalAggr)) (inputs : List Tuple)
    (hlen : ∀ t ∈ inputs, t.length = aggrs.length) {t : Tuple} (ht : t ∈ inputs) :
    ∃ grp ∈ groupsFn (nKeys aggrs) (scanRows (buildNormalStore aggrs inputs)),
      List.take (nKeys aggrs) (grp.headD []) = nonAggVals aggrs t := by
  obtain ⟨i, hi⟩ := List.mem_iff_getElem?.mp ht
  have henum : (i, t) ∈ inputs.enum := List.mem_enum_iff_getElem?.mpr hi
  have hrow : storedKey aggrs (i, t) ∈ scanRows (buildNormalStore aggrs inputs) :=
    mem_scanRows_build.mpr (List.mem_map_of_mem _ henum)
  have hfl : storedKey aggrs (i, t) ∈ (groupsFn (nKeys aggrs)
      (scanRows (buildNormalStore aggrs inputs))).flatten := by
    rw [groupsFn_flat]
    exact hrow
  obtain ⟨grp, hgrp, hmemg⟩ := List.mem_flatten.mp hfl
  refine ⟨grp, hgrp, ?_⟩
  obtain ⟨hne2, hmem, heq⟩ := groups_filter (nKeys aggrs) (aggrs.length + 1) _
    (sorted_scanRows_build aggrs inputs)
    (fun x hx => length_mem_scanRows_build hlen hx) grp hgrp
  have h3 := hmem _ hmemg
  rw [take_storedKey_keys (hlen t ht)] at h3
  exact h3.symm

theorem normal_aggr_scan_characterization (aggrs : List (Option NormalAggr))
    (inputs : List Tuple) (hlen : ∀ t ∈ inputs, t.length = aggrs.length)
    (hfin : ∀ ag, some ag ∈ aggrs → ∀ vs, (ag.finalize vs).isSome) :
    ∃ st, normal_aggr_scan_and_put aggrs (buildNormalStore aggrs inputs)
        none false [] = some (false, st, none) ∧
      (∀ r : Tuple, mapGet r (st.getD 0 []) = some [] ↔
        ∃ g ∈ groupKeysOf aggrs inputs,
          expectedRow aggrs (canonMembers aggrs inputs g) = some r) ∧
      (∀ r v : Tuple, mapGet r (st.getD 0 []) = some v → v = []) ∧
      (st.getD 0 []).length = (groupKeysOf aggrs inputs).length := by
  have hgf := groups_filter (nKeys aggrs) (aggrs.length + 1)
    (scanRows (buildNormalStore aggrs inputs))
    (sorted_scanRows_build aggrs inputs)
    (fun x hx => length_mem_scanRows_build hlen hx)
  have hne_all : ∀ grp ∈ groupsFn (nKeys aggrs)
      (scanRows (buildNormalStore aggrs inputs)), grp ≠ [] :=
    fun grp hgrp => (hgf grp hgrp).1
  have hexp : ∀ grp ∈ groupsFn (nKeys aggrs)
      (scanRows (buildNormalStore aggrs inputs)),
      computeResult aggrs (invertIdx aggrs) (grp.headD []) grp
        = expectedRow aggrs (canonMembers aggrs inputs
            (List.take (nKeys aggrs) (grp.headD []))) :=
    fun grp hgrp => groupResult_expected aggrs inputs hlen hgrp (hne_all grp hgrp)
  have hsome_all : ∀ grp ∈ groupsFn (nKeys aggrs)
      (scanRows (buildNormalStore aggrs inputs)),
      (computeResult aggrs (invertIdx aggrs) (grp.headD []) grp).isSome := by
    intro grp hgrp
    rw [hexp grp hgrp]
    exact expectedRow_isSome aggrs _ hfin
  obtain ⟨st, hst, hst0⟩ := processGroups_none_run aggrs (invertIdx aggrs)
    (groupsFn (nKeys aggrs) (scanRows (buildNormalStore aggrs inputs))) []
    hne_all hsome_all
  have hkey : ∀ grp ∈ groupsFn (nKeys aggrs)
      (scanRows (buildNormalStore aggrs inputs)),
      nonAggVals aggrs ((computeResult aggrs (invertIdx aggrs)
        (grp.headD []) grp).getD [])
        = List.take (nKeys aggrs) (grp.headD []) := by
    intro grp hgrp
    obtain ⟨t, ht, htg⟩ := group_key_mem_inputs aggrs inputs hlen hgrp
      (hne_all grp hgrp)
    obtain ⟨r, hr⟩ := Option.isSome_iff_exists.mp (hsome_all grp hgrp)
    rw [hr]
    have hr2 := hr
    rw [hexp grp hgrp] at hr2
    show nonAggVals aggrs r = _
    exact expectedRow_key hlen (canonMembers_ne_nil ht htg) hr2
  have hmemR : ∀ r : Tuple,
      r ∈ groupResultsOf aggrs (invertIdx aggrs)
        (groupsFn (nKeys aggrs) (scanRows (buildNormalStore aggrs inputs)))
      ↔ ∃ g ∈ groupKeysOf aggrs inputs,
          expectedRow aggrs (canonMembers aggrs inputs g) = some r := by
    intro r
    constructor
    · intro hr
      obtain ⟨grp, hgrp, hfr⟩ := List.mem_map.mp hr
      obtain ⟨res, hres⟩ := Option.isSome_iff_exists.mp (hsome_all grp hgrp)
      have hres_r : computeResult aggrs (invertIdx aggrs) (grp.headD []) grp
          = some r := by
        rw [hres]
        rw [hres] at hfr
        simp only [Option.getD_some] at hfr
        rw [hfr]
      obtain ⟨t, ht, htg⟩ := group_key_mem_inputs aggrs inputs hlen hgrp
        (hne_all grp hgrp)
      refine ⟨List.take (nKeys aggrs) (grp.headD []), ?_, ?_⟩
      · unfold groupKeysOf
        rw [List.mem_dedup]
        rw [← htg]
        exact List.mem_map_of_mem _ ht
      · rw [← hexp grp hgrp]
        exact hres_r
    · intro hr
      obtain ⟨g, hg, hrow⟩ := hr
      unfold groupKeysOf at hg
      rw [List.mem_dedup] at hg
      obtain ⟨t, ht, htg⟩ := List.mem_map.mp hg
      obtain ⟨grp, hgrp, hkeyg⟩ := key_has_group aggrs inputs hlen ht
      have hkg : List.take (nKeys aggrs) (grp.headD []) = g := by rw [hkeyg, htg]
      apply List.mem_map.mpr
      refine ⟨grp, hgrp, ?_⟩
      rw [hexp grp hgrp, hkg, hrow]
      rfl
  have hndR : (groupResultsOf aggrs (invertIdx aggrs)
      (groupsFn (nKeys aggrs) (scanRows (buildNormalStore aggrs inputs)))).Nodup := by
    apply List.pairwise_map.mpr
    apply List.Pairwise.imp_of_mem ?imp
      (groups_keys_pairwise (nKeys aggrs) (aggrs.length + 1)
        (scanRows (buildNormalStore aggrs inputs))
        (sorted_scanRows_build aggrs inputs)
        (fun x hx => length_mem_scanRows_build hlen hx))
    case imp =>
      intro g1 g2 h1 h2 hne12 hcon
      apply hne12
      rw [← hkey g1 h1, ← hkey g2 h2, hcon]
  have hkeysmem : ∀ g : Tuple,
      g ∈ (groupsFn (nKeys aggrs)
        (scanRows (buildNormalStore aggrs inputs))).map
          (fun grp => List.take (nKeys aggrs) (grp.headD []))
      ↔ g ∈ groupKeysOf aggrs inputs := by
    intro g
    constructor
    · intro hg
      obtain ⟨grp, hgrp, hge⟩ := List.mem_map.mp hg
      obtain ⟨t, ht, htg⟩ := group_key_mem_inputs aggrs inputs hlen hgrp
        (hne_all grp hgrp)
      unfold groupKeysOf
      rw [List.mem_dedup, ← hge, ← htg]
      exact List.mem_map_of_mem _ ht
    · intro hg
      unfold groupKeysOf at hg
      rw [List.mem_dedup] at hg
      obtain ⟨t, ht, htg⟩ := List.mem_map.mp hg
      obtain ⟨grp, hgrp, hkeyg⟩ := key_has_group aggrs inputs hlen ht
      apply List.mem_map.mpr
      exact ⟨grp, hgrp, by rw [hkeyg, htg]⟩
  have hndK : ((groupsFn (nKeys aggrs)
      (scanRows (buildNormalStore aggrs inputs))).map
        (fun grp => List.take (nKeys aggrs) (grp.headD []))).Nodup := by
    apply List.pairwise_map.mpr
    exact groups_keys_pairwise (nKeys aggrs) (aggrs.length + 1)
      (scanRows (buildNormalStore aggrs inputs))
      (sorted_scanRows_build aggrs inputs)
      (fun x hx => length_mem_scanRows_build hlen hx)
  have hcount : (groupsFn (nKeys aggrs)
      (scanRows (buildNormalStore aggrs inputs))).length
      = (groupKeysOf aggrs inputs).length := by
    have hperm := (List.perm_ext_iff_of_nodup hndK
      (List.nodup_dedup _)).mpr hkeysmem
    have hl := hperm.length_eq
    rw [List.length_map] at hl
    exact hl
  have hst0b : st.getD 0 []
      = insertKeys (groupResultsOf aggrs (invertIdx aggrs)
          (groupsFn (nKeys aggrs) (scanRows (buildNormalStore aggrs inputs)))) [] :=
    hst0.trans rfl
  refine ⟨st, ?_, ?_, ?_, ?_⟩
  · exact hst
  · intro r
    rw [hst0b, mapGet_insertKeys_nil]
    by_cases hr : r ∈ groupResultsOf aggrs (invertIdx aggrs)
        (groupsFn (nKeys aggrs) (scanRows (buildNormalStore aggrs inputs)))
    · rw [if_pos hr]
      constructor
      · intro _; exact (hmemR r).mp hr
      · intro _; rfl
    · rw [if_neg hr]
      constructor
      · intro h; exact absurd h (by simp)
      · intro h; exact absurd ((hmemR r).mpr h) hr
  · intro r v hv
    rw [hst0b, mapGet_insertKeys_nil] at hv
    by_cases hr : r ∈ groupResultsOf aggrs (invertIdx aggrs)
        (groupsFn (nKeys aggrs) (scanRows (buildNormalStore aggrs inputs)))
    · rw [if_pos hr] at hv
      exact (Option.some.inj hv).symm
    · rw [if_neg hr] at hv
      exact absurd hv (by simp)
  · rw [hst0b, length_insertKeys_nodup _ hndR List.Pairwise.nil
      (fun k _ => rfl)]
    unfold groupResultsOf
    rw [List.length_map, hcount]
    simp

/-- Claim C4: over a store built by putting each input row with its serial,
`normal_aggr_scan_and_put` without a limiter succeeds and writes into the
destination's epoch 0 exactly one result row per group of the inputs (rows
agreeing on the non-aggregated columns): the stored rows are exactly the
expected rows — group values at non-aggregated positions and each declared
aggregate finalized over the group members' column values, in original
column order — with one row per distinct group key, and the destination's
epoch-0 content is independent of the order in which the input rows were
put. -/
theorem claim_c4_normal_aggregation (aggrs : List (Option NormalAggr))
    (inputs inputs2 : List Tuple)
    (hlen : ∀ t ∈ inputs, t.length = aggrs.length)
    (hperm : inputs.Perm inputs2)
    (hfin : ∀ ag, some ag ∈ aggrs → ∀ vs, (ag.finalize vs).isSome) :
    ∃ st st2,
      normal_aggr_scan_and_put aggrs (buildNormalStore aggrs inputs)
        none false [] = some (false, st, none) ∧
      normal_aggr_scan_and_put aggrs (buildNormalStore aggrs inputs2)
        none false [] = some (false, st2, none) ∧
      (∀ r : Tuple, mapGet r (st.getD 0 []) = some [] ↔
        ∃ g ∈ groupKeysOf aggrs inputs,
          expectedRow aggrs (canonMembers aggrs inputs g) = some r) ∧
      (st.getD 0 []).length = (groupKeysOf aggrs inputs).length ∧
      (∀ r : Tuple, mapGet r (st2.getD 0 []) = mapGet r (st.getD 0 [])) := by
  have hlen2 : ∀ t ∈ inputs2, t.length = aggrs.length :=
    fun t ht => hlen t (hperm.mem_iff.mpr ht)
  obtain ⟨st, hst, hA, hB, hC⟩ :=
    normal_aggr_scan_characterization aggrs inputs hlen hfin
  obtain ⟨st2, hst2, hA2, hB2, hC2⟩ :=
    normal_aggr_scan_characterization aggrs inputs2 hlen2 hfin
  have hkeys : ∀ g : Tuple,
      g ∈ groupKeysOf aggrs inputs ↔ g ∈ groupKeysOf aggrs inputs2 := by
    intro g
    unfold groupKeysOf
    rw [List.mem_dedup, List.mem_dedup]
    constructor
    · intro h
      obtain ⟨t, ht, htg⟩ := List.mem_map.mp h
      exact List.mem_map.mpr ⟨t, hperm.mem_iff.mp ht, htg⟩
    · intro h
      obtain ⟨t, ht, htg⟩ := List.mem_map.mp h
      exact List.mem_map.mpr ⟨t, hperm.mem_iff.mpr ht, htg⟩
  have hEx : ∀ r : Tuple,
      (∃ g ∈ groupKeysOf aggrs inputs,
        expectedRow aggrs (canonMembers aggrs inputs g) = some r)
      ↔ (∃ g ∈ groupKeysOf aggrs inputs2,
        expectedRow aggrs (canonMembers aggrs inputs2 g) = some r) := by
    intro r
    constructor
    · intro h
      obtain ⟨g, hg, hrow⟩ := h
      refine ⟨g, (hkeys g).mp hg, ?_⟩
      rw [← canonMembers_perm_eq aggrs hperm hlen g]
      exact hrow
    · intro h
      obtain ⟨g, hg, hrow⟩ := h
      refine ⟨g, (hkeys g).mpr hg, ?_⟩
      rw [canonMembers_perm_eq aggrs hperm hlen g]
      exact hrow
  refine ⟨st, st2, hst, hst2, hA, hC, ?_⟩
  intro r
  cases h1 : mapGet r (st.getD 0 []) with
  | some v =>
    have hv := hB r v h1
    subst hv
    exact (hA2 r).mpr ((hEx r).mp ((hA r).mp h1))
  | none =>
    cases h2 : mapGet r (st2.getD 0 []) with
    | none => rfl
    | some v =>
      have hv := hB2 r v h2
      subst hv
      have h3 := (hA r).mpr ((hEx r).mpr ((hA2 r).mp h2))
      rw [h3] at h1
      exact absurd h1 (by simp)

/-- Witness for C4: the spec's own example — sum aggregate, group `0`
holding 1, 2, 3 and group `1` holding 10 — run in both orders; the
destination holds exactly the rows `(0, 6)` and `(1, 10)`. -/
theorem claim_c4_normal_aggregation_witness :
    (∃ st st2,
      normal_aggr_scan_and_put exAggrsT (buildNormalStore exAggrsT exInputsC4)
        none false [] = some (false, st, none) ∧
      normal_aggr_scan_and_put exAggrsT (buildNormalStore exAggrsT exInputsC4b)
        none false [] = some (false, st2, none) ∧
      (∀ r : Tuple, mapGet r (st.getD 0 []) = some [] ↔
        ∃ g ∈ groupKeysOf exAggrsT exInputsC4,
          expectedRow exAggrsT (canonMembers exAggrsT exInputsC4 g) = some r) ∧
      (st.getD 0 []).length = (groupKeysOf exAggrsT exInputsC4).length ∧
      (∀ r : Tuple, mapGet r (st2.getD 0 []) = mapGet r (st.getD 0 []))) ∧
    normal_aggr_scan_and_put exAggrsT (buildNormalStore exAggrsT exInputsC4)
        none false []
      = some (false,
          [[([DataValue.I 0, DataValue.I 6], ([] : Tuple)),
            ([DataValue.I 1, DataValue.I 10], ([] : Tuple))]], none) :=
  ⟨claim_c4_normal_aggregation exAggrsT exInputsC4 exInputsC4b
      (by decide) (by decide)
      (fun ag hag vs => by
        have hag2 : ag = sumAggrT := by simpa [exAggrsT] using hag
        rw [hag2]
        rfl),
    by decide⟩

end Cozo
